import Mathlib

/-!
Verification of the semantic linking and summarization core.

This file gives a shallow embedding, in Lean 4, of the two pipelines of the
repository's context engine:

* `src/context/semanticLinker.ts` — the TF-IDF / cosine-similarity semantic
  graph builder (`buildSemanticGraph`, `calculateCosineSimilarity`) and the
  budgeted excerpt packer (`intelligentlySummarizeFileContent`);
* `src/utils/codeAnalysisUtils.ts` — the range-extraction helpers
  (`extractContentForRange`, `getDeclarationRange`, `getDocumentationRange`,
  `formatSymbolStructure`).

JavaScript `Map`s are embedded as association lists in insertion order
(`Map.set` updates an existing key in place, otherwise appends); JavaScript
numbers holding line/column indices are embedded as `Int` (the code performs
defensive sign checks), character counts as `Nat`, and similarity scores as
real numbers (`ℝ`), with the float literals `0.01`, `0.7` etc. read as exact
rationals.  Strings are Lean `String`s (the sources only ever manipulate
them by code-unit counts, which for the ASCII data considered here agree
with character counts).
-/

/-! ## Part 1: the semantic graph builder (`semanticLinker.ts`, lines 1-352) -/

/-- A character matched by the JavaScript regex class `\w` (ASCII). -/
def jsIsWordChar (c : Char) : Bool :=
  c.isAlpha || c.isDigit || c == '_'

/-- Maximal runs of word characters of a character list (accumulator holds
the current run, reversed).  This models what `` `str.match(/\b\w+\b/g)` ``
returns: every maximal nonempty run of `\w` characters. -/
def wordRunsAux : List Char → List Char → List (List Char)
  | [], cur => if cur.isEmpty then [] else [cur.reverse]
  | c :: rest, cur =>
    if jsIsWordChar c then wordRunsAux rest (c :: cur)
    else if cur.isEmpty then wordRunsAux rest cur
    else cur.reverse :: wordRunsAux rest []

/-- `(summary.match(/\b\w+\b/g) || []).map((t) => t.toLowerCase())`. -/
def tokenizeWords (s : String) : List String :=
  (wordRunsAux s.data []).map (fun run => String.mk (run.map Char.toLower))

/-- The `STOP_WORDS` set (source order; the source stores these in a `Set`,
so the duplicated entries `"from"` and `"this"` are harmless). -/
def STOP_WORDS : List String :=
  ["a", "about", "above", "after", "again", "against", "all", "am", "an",
   "and", "any", "are", "aren\x27t", "as", "at", "be", "because", "been",
   "before", "being", "below", "between", "both", "but", "by", "can\x27t",
   "cannot", "could", "couldn\x27t", "did", "didn\x27t", "do", "does",
   "doesn\x27t", "doing", "don\x27t", "down", "during", "each", "few",
   "for", "from", "further", "had", "hadn\x27t", "has", "hasn\x27t",
   "have", "haven\x27t", "having", "he", "he\x27d", "he\x27ll", "he\x27s",
   "her", "here", "here\x27s", "hers", "herself", "him", "himself", "his",
   "how", "how\x27s", "i", "i\x27d", "i\x27ll", "i\x27m", "i\x27ve", "if",
   "in", "into", "is", "isn\x27t", "it", "it\x27s", "its", "itself",
   "let\x27s", "me", "more", "most", "mustn\x27t", "my", "myself", "no",
   "nor", "not", "of", "off", "on", "once", "only", "or", "other",
   "ought", "our", "ours", "ourselves", "out", "over", "own", "same",
   "shan\x27t", "she", "she\x27d", "she\x27ll", "she\x27s", "should",
   "shouldn\x27t", "so", "some", "such", "than", "that", "that\x27s",
   "the", "their", "theirs", "them", "themselves", "then", "there",
   "there\x27s", "these", "they", "they\x27d", "they\x27ll", "they\x27re",
   "they\x27ve", "this", "those", "through", "to", "too", "under",
   "until", "up", "very", "was", "wasn\x27t", "we", "we\x27d", "we\x27ll",
   "we\x27re", "we\x27ve", "were", "weren\x27t", "what", "what\x27s",
   "when", "when\x27s", "where", "where\x27s", "which", "while", "who",
   "who\x27s", "whom", "why", "why\x27s", "with", "won\x27t", "would",
   "wouldn\x27t", "you", "you\x27d", "you\x27ll", "you\x27re", "you\x27ve",
   "your", "yours", "yourself", "yourselves", "file", "code", "function",
   "class", "method", "variable", "parameter", "return", "import",
   "export", "const", "let", "var", "interface", "type", "public",
   "private", "protected", "static", "async", "await", "new", "this",
   "super", "extends", "implements", "from", "module"]

/-- `Map.get` on an insertion-ordered association list. -/
def alGet {α : Type} (m : List (String × α)) (k : String) : Option α :=
  match m with
  | [] => none
  | (k0, v) :: rest => if k0 = k then some v else alGet rest k

/-- `map.set(k, (map.get(k) || 0) + 1)`: bump a counter in a JS `Map`
(update in place if present, else append). -/
def alIncr (m : List (String × Nat)) (k : String) : List (String × Nat) :=
  match m with
  | [] => [(k, 1)]
  | (k0, v) :: rest =>
    if k0 = k then (k0, v + 1) :: rest else (k0, v) :: alIncr rest k

/-- The per-document term-frequency map: tokens that are not stop words and
have length > 1 are counted (semanticLinker.ts lines 278-284). -/
def termFreqOf (summary : String) : List (String × Nat) :=
  (tokenizeWords summary).foldl
    (fun m token =>
      if token ∉ STOP_WORDS ∧ 1 < token.length then alIncr m token else m)
    []

/-- `tfMaps`: for each file path (in corpus order) the term-frequency map of
`fileSummaries.get(filePath) || ""` (semanticLinker.ts lines 273-285). -/
def tfMapsOf (fs : List (String × String)) :
    List (String × List (String × Nat)) :=
  (fs.map Prod.fst).map (fun p => (p, termFreqOf ((alGet fs p).getD "")))

/-- One document's contribution to `dfMap`: every key of its term-frequency
map (these are already unique) bumps the document-frequency counter. -/
def dfFold (dfm : List (String × Nat)) (tf : List (String × Nat)) :
    List (String × Nat) :=
  (tf.map Prod.fst).foldl alIncr dfm

/-- `dfMap`: document frequencies over the corpus
(semanticLinker.ts lines 287-291). -/
def dfMapOf (fs : List (String × String)) : List (String × Nat) :=
  (tfMapsOf fs).foldl (fun dfm e => dfFold dfm e.2) []

/-- `totalDocs = filePaths.length`. -/
def totalDocsOf (fs : List (String × String)) : Nat := fs.length

/-- The TF-IDF vector of one file:
`tfidf = tf * Math.log(totalDocs / (dfMap.get(term) || 1))`
(semanticLinker.ts lines 296-307; the stored document frequencies are
always ≥ 1, so `|| 1` only fires for an absent key). -/
noncomputable def tfidfFor (fs : List (String × String)) (p : String) :
    List (String × ℝ) :=
  let termFrequencies := (alGet (tfMapsOf fs) p).getD []
  termFrequencies.map (fun e =>
    let df : Nat := (alGet (dfMapOf fs) e.1).getD 1
    let idf : ℝ := Real.log ((totalDocsOf fs : ℝ) / (df : ℝ))
    (e.1, (e.2 : ℝ) * idf))

/-- `tfidfVectors` (semanticLinker.ts lines 294-309; the `continue` branch
for an absent `tfMaps` entry is unreachable because `tfMaps` received every
path). -/
noncomputable def tfidfVectorsOf (fs : List (String × String)) :
    List (String × List (String × ℝ)) :=
  (fs.map Prod.fst).map (fun p => (p, tfidfFor fs p))

/-- Insertion-order deduplication with an accumulator of already-seen
elements (structural recursion, so concrete instances evaluate). -/
def jsDedupAux : List String → List String → List String
  | [], _ => []
  | a :: l, seen =>
    if a ∈ seen then jsDedupAux l seen else a :: jsDedupAux l (a :: seen)

/-- `new Set([...termsA, ...termsB])`: insertion-order deduplication,
keeping the first occurrence of each element. -/
def jsDedup (l : List String) : List String := jsDedupAux l []

/-- `vector.get(term) || 0` (a stored score of `0` also reads as `0`). -/
noncomputable def getScore (v : List (String × ℝ)) (t : String) : ℝ :=
  (alGet v t).getD 0

/-- The accumulation loop of `calculateCosineSimilarity`
(semanticLinker.ts lines 238-244): running
`(dotProduct, magnitudeA, magnitudeB)`. -/
noncomputable def cosineFold (vectorA vectorB : List (String × ℝ))
    (terms : List String) : ℝ × ℝ × ℝ :=
  terms.foldl
    (fun acc term =>
      let scoreA := getScore vectorA term
      let scoreB := getScore vectorB term
      (acc.1 + scoreA * scoreB, acc.2.1 + scoreA * scoreA,
       acc.2.2 + scoreB * scoreB))
    (0, 0, 0)

open Classical in
/-- `calculateCosineSimilarity` (semanticLinker.ts lines 226-251). -/
noncomputable def calculateCosineSimilarity
    (vectorA vectorB : List (String × ℝ)) : ℝ :=
  let allTerms := jsDedup (vectorA.map Prod.fst ++ vectorB.map Prod.fst)
  let r := cosineFold vectorA vectorB allTerms
  if r.2.1 = 0 ∨ r.2.2 = 0 then 0
  else r.1 / (Real.sqrt r.2.1 * Real.sqrt r.2.2)

/-- `SemanticLink` (semanticLinker.ts lines 209-212). -/
structure SemanticLink where
  relatedPath : String
  score : ℝ

/-- `semanticGraph.get(p)!.push(link)` preceded by
`if (!semanticGraph.has(p)) semanticGraph.set(p, [])`. -/
def alistPush (g : List (String × List SemanticLink)) (p : String)
    (l : SemanticLink) : List (String × List SemanticLink) :=
  match g with
  | [] => [(p, [l])]
  | (q, ls) :: rest =>
    if q = p then (q, ls ++ [l]) :: rest else (q, ls) :: alistPush rest p l

open Classical in
/-- The body of the pairwise loop (semanticLinker.ts lines 315-342):
look up both TF-IDF vectors, and if the similarity clears the `0.01`
threshold insert a link in both directions with the identical score. -/
noncomputable def pairStep
    (vecs : List (String × List (String × ℝ)))
    (g : List (String × List SemanticLink)) (pathA pathB : String) :
    List (String × List SemanticLink) :=
  match alGet vecs pathA, alGet vecs pathB with
  | some vectorA, some vectorB =>
    let similarity := calculateCosineSimilarity vectorA vectorB
    if similarity > 0.01 then
      alistPush (alistPush g pathA ⟨pathB, similarity⟩) pathB
        ⟨pathA, similarity⟩
    else g
  | _, _ => g

/-- The double loop `for i; for j > i` over `filePaths`
(semanticLinker.ts lines 313-344). -/
noncomputable def pairLoop (vecs : List (String × List (String × ℝ))) :
    List String → List (String × List SemanticLink) →
    List (String × List SemanticLink)
  | [], g => g
  | a :: rest, g =>
    pairLoop vecs rest (rest.foldl (fun g' b => pairStep vecs g' a b) g)

open Classical in
/-- Stable insertion step for the descending sort
`links.sort((a, b) => b.score - a.score)`: an element keeps walking past
strictly higher scores and lands before the first element it need not
follow (ties preserve insertion order). -/
noncomputable def insertLinkDesc (x : SemanticLink) :
    List SemanticLink → List SemanticLink
  | [] => [x]
  | y :: l => if x.score < y.score then y :: insertLinkDesc x l
              else x :: y :: l

/-- `links.sort((a, b) => b.score - a.score)` — JS `sort` is stable. -/
noncomputable def sortLinksDesc (ls : List SemanticLink) :
    List SemanticLink :=
  ls.foldr insertLinkDesc []

/-- `buildSemanticGraph` (semanticLinker.ts lines 260-352).  The input
corpus is a JS `Map` from file path to summary, embedded as an
insertion-ordered association list (so well-formed inputs have `Nodup`
keys). -/
noncomputable def buildSemanticGraph (fileSummaries : List (String × String)) :
    List (String × List SemanticLink) :=
  let filePaths := fileSummaries.map Prod.fst
  if filePaths.length < 2 then []
  else
    let tfidfVectors := tfidfVectorsOf fileSummaries
    let semanticGraph := pairLoop tfidfVectors filePaths []
    semanticGraph.map (fun e => (e.1, sortLinksDesc e.2))

/-- C4: for every input mapping containing fewer than 2 documents,
`buildSemanticGraph` returns an empty map. -/
theorem buildSemanticGraph_small_corpus_empty
    (fs : List (String × String))
    (h : (fs.map Prod.fst).length < 2) :
    buildSemanticGraph fs = [] := by
  unfold buildSemanticGraph
  simp only [List.length_map] at h ⊢
  rw [if_pos h]

/-- C4 witness: a singleton corpus yields the empty graph. -/
theorem buildSemanticGraph_small_corpus_empty_witness :
    ([("a.ts", "handles user authentication login")].map
        (Prod.fst (α := String) (β := String))).length < 2 ∧
      buildSemanticGraph [("a.ts", "handles user authentication login")] = [] :=
  ⟨by simp, buildSemanticGraph_small_corpus_empty _ (by simp)⟩

/-! ### Association-list and fold lemmas -/

theorem alGet_mem {α : Type} {m : List (String × α)} {k : String} {v : α}
    (h : alGet m k = some v) : (k, v) ∈ m := by
  induction m with
  | nil => simp [alGet] at h
  | cons e rest ih =>
    obtain ⟨k0, v0⟩ := e
    by_cases hk : k0 = k
    · subst hk
      simp [alGet] at h
      simp [h]
    · simp [alGet, hk] at h
      simp [ih h]

theorem alGet_map_pair {β : Type} (F : String → β) (xs : List String)
    (q : String) {v : β}
    (h : alGet (xs.map (fun p => (p, F p))) q = some v) : v = F q := by
  induction xs with
  | nil => simp [alGet] at h
  | cons a rest ih =>
    by_cases ha : a = q
    · subst ha
      simp [alGet] at h
      exact h.symm
    · simp [alGet, ha] at h
      exact ih h

theorem alGet_map_pair_of_mem {β : Type} (F : String → β) (xs : List String)
    {q : String} (h : q ∈ xs) :
    alGet (xs.map (fun p => (p, F p))) q = some (F q) := by
  induction xs with
  | nil => simp at h
  | cons a rest ih =>
    by_cases ha : a = q
    · subst ha
      simp [alGet]
    · have h' : q ∈ rest := by
        rcases List.mem_cons.mp h with h | h
        · exact absurd h.symm ha
        · exact h
      simp [alGet, ha, ih h']

theorem alGet_alIncr (m : List (String × Nat)) (k t : String) :
    alGet (alIncr m k) t =
      if t = k then some ((alGet m k).getD 0 + 1) else alGet m t := by
  induction m with
  | nil =>
    by_cases h : t = k
    · subst h; simp [alIncr, alGet]
    · simp [alIncr, alGet, h, Ne.symm h]
  | cons e rest ih =>
    obtain ⟨k0, v0⟩ := e
    by_cases h0 : k0 = k
    · subst h0
      by_cases ht : t = k0
      · subst ht; simp [alIncr, alGet]
      · simp [alIncr, alGet, ht, Ne.symm ht]
    · by_cases ht : k0 = t
      · subst ht
        simp [alIncr, h0, alGet, Ne.symm h0]
      · simp [alIncr, h0, alGet, ht, ih]

theorem alIncr_keys (m : List (String × Nat)) (k : String) :
    (alIncr m k).map Prod.fst =
      if k ∈ m.map Prod.fst then m.map Prod.fst
      else m.map Prod.fst ++ [k] := by
  induction m with
  | nil => simp [alIncr]
  | cons e rest ih =>
    obtain ⟨k0, v0⟩ := e
    by_cases h0 : k0 = k
    · subst h0
      simp [alIncr]
    · by_cases hk : k ∈ rest.map Prod.fst <;>
        simp [alIncr, h0, ih, hk, Ne.symm h0]

theorem alIncr_keys_nodup {m : List (String × Nat)} (k : String)
    (h : (m.map Prod.fst).Nodup) : ((alIncr m k).map Prod.fst).Nodup := by
  rw [alIncr_keys]
  by_cases hk : k ∈ m.map Prod.fst
  · simpa [hk]
  · rw [if_neg hk, List.nodup_append]
    refine ⟨h, by simp, ?_⟩
    intro a ha
    simp only [List.mem_singleton]
    rintro rfl
    exact hk ha

theorem termFreqOf_keys_nodup (s : String) :
    ((termFreqOf s).map Prod.fst).Nodup := by
  unfold termFreqOf
  generalize tokenizeWords s = toks
  have main : ∀ (toks : List String) (m : List (String × Nat)),
      (m.map Prod.fst).Nodup →
      ((toks.foldl (fun m token =>
        if token ∉ STOP_WORDS ∧ 1 < token.length then alIncr m token else m)
        m).map Prod.fst).Nodup := by
    intro toks
    induction toks with
    | nil => intro m hm; simpa using hm
    | cons t rest ih =>
      intro m hm
      simp only [List.foldl_cons]
      by_cases hc : t ∉ STOP_WORDS ∧ 1 < t.length
      · simp only [if_pos hc]
        exact ih _ (alIncr_keys_nodup t hm)
      · simp only [if_neg hc]
        exact ih _ hm
  exact main toks [] (by simp)

/-- Folding `alIncr` over a `Nodup` key list bumps each present key by
exactly one. -/
theorem alGet_foldl_alIncr (ks : List String) (dfm : List (String × Nat))
    (t : String) (hk : ks.Nodup) :
    alGet (ks.foldl alIncr dfm) t =
      if t ∈ ks then some ((alGet dfm t).getD 0 + 1) else alGet dfm t := by
  induction ks generalizing dfm with
  | nil => simp
  | cons k rest ih =>
    have hk' : rest.Nodup := hk.of_cons
    simp only [List.foldl_cons]
    rw [ih _ hk']
    by_cases ht : t ∈ rest
    · have htk : t ≠ k := by
        rintro rfl
        exact (List.nodup_cons.mp hk).1 ht
      simp [ht, htk, alGet_alIncr]
    · by_cases htk : t = k
      · subst htk
        simp [ht, alGet_alIncr]
      · simp [ht, htk, alGet_alIncr]

/-- Characterization of the document-frequency fold: the value of a key is
its starting value plus the number of documents whose term-frequency map
mentions it. -/
theorem alGet_dfFoldl (tfms : List (String × List (String × Nat)))
    (dfm : List (String × Nat)) (t : String)
    (hn : ∀ e ∈ tfms, ((e.2.map Prod.fst) : List String).Nodup) :
    alGet (tfms.foldl (fun dfm e => dfFold dfm e.2) dfm) t =
      (let c := tfms.countP (fun e => decide (t ∈ e.2.map Prod.fst))
       if c = 0 then alGet dfm t else some ((alGet dfm t).getD 0 + c)) := by
  induction tfms generalizing dfm with
  | nil => simp
  | cons e rest ih =>
    have he : ((e.2.map Prod.fst) : List String).Nodup := hn e (by simp)
    have hrest : ∀ e' ∈ rest, ((e'.2.map Prod.fst) : List String).Nodup :=
      fun e' h' => hn e' (by simp [h'])
    simp only [List.foldl_cons]
    rw [ih _ hrest]
    unfold dfFold
    rw [alGet_foldl_alIncr _ _ _ he]
    by_cases hmem : t ∈ e.2.map Prod.fst
    · by_cases hc : rest.countP (fun e => decide (t ∈ e.2.map Prod.fst)) = 0
      · simp [hmem, hc, List.countP_cons]
      · have h1 : rest.countP (fun e => decide (t ∈ e.2.map Prod.fst)) + 1 ≠ 0 := by
          omega
        simp only [List.countP_cons, decide_eq_true_eq, hmem, if_true,
          if_pos hmem, Option.getD_some]
        simp only [h1, if_neg h1, if_neg hc]
        congr 1
        omega
    · simp only [List.countP_cons, decide_eq_true_eq, hmem, if_false,
        if_neg hmem]
      simp

/-- Document frequencies actually stored in `dfMap` count documents, hence
lie between 1 and the corpus size. -/
theorem dfMapOf_bounds (fs : List (String × String)) (t : String) (v : Nat)
    (h : alGet (dfMapOf fs) t = some v) : 1 ≤ v ∧ v ≤ fs.length := by
  unfold dfMapOf at h
  rw [alGet_dfFoldl _ _ _ (by
    intro e he
    unfold tfMapsOf at he
    obtain ⟨p, hp, rfl⟩ := List.mem_map.mp he
    exact termFreqOf_keys_nodup _)] at h
  simp only [alGet] at h
  by_cases hc :
      (tfMapsOf fs).countP (fun e => decide (t ∈ e.2.map Prod.fst)) = 0
  · simp [hc] at h
  · simp [hc] at h
    have hle : (tfMapsOf fs).countP (fun e => decide (t ∈ e.2.map Prod.fst)) ≤
        (tfMapsOf fs).length := List.countP_le_length _
    have hlen : (tfMapsOf fs).length = fs.length := by
      unfold tfMapsOf; simp
    omega

/-- In a corpus with at least two documents, every TF-IDF weight is
non-negative: the term frequency is a count and
`ln(totalDocs / df) ≥ 0` because `1 ≤ df ≤ totalDocs`. -/
theorem tfidfFor_nonneg (fs : List (String × String))
    (h2 : 2 ≤ fs.length) (p : String) :
    ∀ e ∈ tfidfFor fs p, 0 ≤ e.2 := by
  intro e he
  unfold tfidfFor at he
  obtain ⟨⟨t, tf⟩, _, rfl⟩ := List.mem_map.mp he
  simp only
  have hdf : 1 ≤ ((alGet (dfMapOf fs) t).getD 1) ∧
      ((alGet (dfMapOf fs) t).getD 1) ≤ fs.length := by
    cases hv : alGet (dfMapOf fs) t with
    | none => simpa using by omega
    | some v =>
      have := dfMapOf_bounds fs t v hv
      simpa using this
  have hdfpos : (0 : ℝ) < ((alGet (dfMapOf fs) t).getD 1 : ℝ) := by
    exact_mod_cast Nat.lt_of_lt_of_le Nat.zero_lt_one hdf.1
  have hratio : (1 : ℝ) ≤
      (totalDocsOf fs : ℝ) / ((alGet (dfMapOf fs) t).getD 1 : ℝ) := by
    rw [le_div_iff₀ hdfpos, one_mul]
    unfold totalDocsOf
    exact_mod_cast hdf.2
  exact mul_nonneg (by positivity) (Real.log_nonneg hratio)

/-- Entries of the TF-IDF vectors looked up during the pairwise loop are
non-negative. -/
theorem tfidfVectorsOf_nonneg (fs : List (String × String))
    (h2 : 2 ≤ fs.length) (q : String) (v : List (String × ℝ))
    (h : alGet (tfidfVectorsOf fs) q = some v) : ∀ e ∈ v, 0 ≤ e.2 := by
  unfold tfidfVectorsOf at h
  have := alGet_map_pair (tfidfFor fs) _ _ h
  subst this
  exact tfidfFor_nonneg fs h2 q

theorem mem_of_mem_jsDedupAux {l seen : List String} {x : String}
    (h : x ∈ jsDedupAux l seen) : x ∈ l ∧ x ∉ seen := by
  induction l generalizing seen with
  | nil => simp [jsDedupAux] at h
  | cons a l ih =>
    rw [jsDedupAux] at h
    by_cases ha : a ∈ seen
    · rw [if_pos ha] at h
      have := ih h
      exact ⟨List.mem_cons_of_mem _ this.1, this.2⟩
    · rw [if_neg ha] at h
      rcases List.mem_cons.mp h with h | h
      · subst h
        exact ⟨by simp, ha⟩
      · have := ih h
        refine ⟨List.mem_cons_of_mem _ this.1, fun hx => this.2 ?_⟩
        exact List.mem_cons_of_mem _ hx

theorem jsDedupAux_nodup (l seen : List String) :
    (jsDedupAux l seen).Nodup := by
  induction l generalizing seen with
  | nil => simp [jsDedupAux]
  | cons a l ih =>
    rw [jsDedupAux]
    by_cases ha : a ∈ seen
    · rw [if_pos ha]
      exact ih seen
    · rw [if_neg ha]
      refine List.nodup_cons.mpr ⟨?_, ih _⟩
      intro hmem
      exact (mem_of_mem_jsDedupAux hmem).2 (by simp)

theorem jsDedup_nodup (l : List String) : (jsDedup l).Nodup :=
  jsDedupAux_nodup l []

theorem jsDedupAux_eq_self {l seen : List String} (hn : l.Nodup)
    (hs : ∀ x ∈ l, x ∉ seen) : jsDedupAux l seen = l := by
  induction l generalizing seen with
  | nil => simp [jsDedupAux]
  | cons a l ih =>
    rw [jsDedupAux, if_neg (hs a (by simp))]
    congr 1
    refine ih (List.nodup_cons.mp hn).2 ?_
    intro x hx
    simp only [List.mem_cons]
    rintro (rfl | hx')
    · exact (List.nodup_cons.mp hn).1 hx
    · exact hs x (List.mem_cons_of_mem _ hx) hx'

theorem jsDedup_eq_self_of_nodup {l : List String} (h : l.Nodup) :
    jsDedup l = l :=
  jsDedupAux_eq_self h (by simp)

theorem jsDedupAux_skip {l seen : List String}
    (h : ∀ x ∈ l, x ∈ seen) : jsDedupAux l seen = [] := by
  induction l generalizing seen with
  | nil => simp [jsDedupAux]
  | cons a l ih =>
    rw [jsDedupAux, if_pos (h a (by simp))]
    exact ih fun x hx => h x (List.mem_cons_of_mem _ hx)

theorem jsDedupAux_append (l1 l2 seen : List String) :
    ∃ seen', jsDedupAux (l1 ++ l2) seen =
        jsDedupAux l1 seen ++ jsDedupAux l2 seen' ∧
      ∀ x, x ∈ seen' ↔ x ∈ l1 ∨ x ∈ seen := by
  induction l1 generalizing seen with
  | nil => exact ⟨seen, by simp [jsDedupAux], by simp⟩
  | cons a l1 ih =>
    by_cases ha : a ∈ seen
    · obtain ⟨seen', heq, hiff⟩ := ih seen
      refine ⟨seen', ?_, ?_⟩
      · simp only [List.cons_append]
        rw [jsDedupAux, if_pos ha, jsDedupAux, if_pos ha, heq]
      · intro x
        rw [hiff x]
        constructor
        · rintro (h | h)
          · exact Or.inl (List.mem_cons_of_mem _ h)
          · exact Or.inr h
        · rintro (h | h)
          · rcases List.mem_cons.mp h with rfl | h
            · exact Or.inr ha
            · exact Or.inl h
          · exact Or.inr h
    · obtain ⟨seen', heq, hiff⟩ := ih (a :: seen)
      refine ⟨seen', ?_, ?_⟩
      · simp only [List.cons_append]
        rw [jsDedupAux, if_neg ha, jsDedupAux, if_neg ha, heq,
          List.cons_append]
      · intro x
        rw [hiff x]
        constructor
        · rintro (h | h)
          · exact Or.inl (List.mem_cons_of_mem _ h)
          · rcases List.mem_cons.mp h with rfl | h
            · exact Or.inl (by simp)
            · exact Or.inr h
        · rintro (h | h)
          · rcases List.mem_cons.mp h with rfl | h
            · exact Or.inr (by simp)
            · exact Or.inl h
          · exact Or.inr (List.mem_cons_of_mem _ h)

theorem jsDedup_append_self {l : List String} (h : l.Nodup) :
    jsDedup (l ++ l) = l := by
  unfold jsDedup
  obtain ⟨seen', heq, hiff⟩ := jsDedupAux_append l l []
  rw [heq, jsDedupAux_eq_self h (by simp),
    jsDedupAux_skip (fun x hx => (hiff x).mpr (Or.inl hx))]
  simp

theorem foldl_triple_sum (ts : List String) (f g h : String → ℝ)
    (a b c : ℝ) :
    ts.foldl (fun acc t => (acc.1 + f t, acc.2.1 + g t, acc.2.2 + h t))
        (a, b, c) =
      (a + (ts.map f).sum, b + (ts.map g).sum, c + (ts.map h).sum) := by
  induction ts generalizing a b c with
  | nil => simp
  | cons t rest ih =>
    simp only [List.foldl_cons, List.map_cons, List.sum_cons]
    rw [ih]
    ring_nf

/-- The three accumulators of the cosine loop are list sums over the
deduplicated union of term keys. -/
theorem cosineFold_eq (vectorA vectorB : List (String × ℝ))
    (ts : List String) :
    cosineFold vectorA vectorB ts =
      ((ts.map (fun t => getScore vectorA t * getScore vectorB t)).sum,
       (ts.map (fun t => getScore vectorA t * getScore vectorA t)).sum,
       (ts.map (fun t => getScore vectorB t * getScore vectorB t)).sum) := by
  unfold cosineFold
  rw [foldl_triple_sum]
  simp

theorem getScore_nonneg (v : List (String × ℝ))
    (hv : ∀ e ∈ v, 0 ≤ e.2) (t : String) : 0 ≤ getScore v t := by
  unfold getScore
  cases h : alGet v t with
  | none => simp
  | some w =>
    have := alGet_mem h
    simpa using hv (t, w) this

/-- Cauchy–Schwarz, in the shape of the cosine loop: the accumulated dot
product is at most the product of the square roots of the accumulated
squared magnitudes. -/
theorem dot_le_sqrt_mul_sqrt (ts : List String) (f g : String → ℝ)
    (hf : ∀ t, 0 ≤ f t) (hg : ∀ t, 0 ≤ g t) (hts : ts.Nodup) :
    (ts.map (fun t => f t * g t)).sum ≤
      Real.sqrt ((ts.map (fun t => f t * f t)).sum) *
        Real.sqrt ((ts.map (fun t => g t * g t)).sum) := by
  have hfin : ∀ (F : String → ℝ),
      (ts.map F).sum = ∑ t ∈ ts.toFinset, F t := by
    intro F
    exact (List.sum_toFinset F hts).symm
  rw [hfin, hfin, hfin]
  have cs := Finset.sum_mul_sq_le_sq_mul_sq ts.toFinset f g
  have hdotnn : 0 ≤ ∑ t ∈ ts.toFinset, f t * g t :=
    Finset.sum_nonneg fun t _ => mul_nonneg (hf t) (hg t)
  have h1 : ∑ t ∈ ts.toFinset, f t * g t =
      Real.sqrt ((∑ t ∈ ts.toFinset, f t * g t) ^ 2) :=
    (Real.sqrt_sq hdotnn).symm
  rw [h1]
  have h2 : ∀ (F : String → ℝ), ∑ t ∈ ts.toFinset, F t * F t =
      ∑ t ∈ ts.toFinset, F t ^ 2 := by
    intro F
    refine Finset.sum_congr rfl fun t _ => ?_
    ring
  rw [h2, h2]
  have hsq : Real.sqrt ((∑ t ∈ ts.toFinset, f t * g t) ^ 2) ≤
      Real.sqrt ((∑ t ∈ ts.toFinset, f t ^ 2) * ∑ t ∈ ts.toFinset, g t ^ 2) :=
    Real.sqrt_le_sqrt cs
  refine hsq.trans_eq ?_
  exact Real.sqrt_mul (Finset.sum_nonneg fun t _ => sq_nonneg _) _

/-- The cosine similarity of two vectors with non-negative entries is at
most 1 (and the zero-magnitude guard returns 0). -/
theorem calculateCosineSimilarity_le_one (vectorA vectorB : List (String × ℝ))
    (ha : ∀ e ∈ vectorA, 0 ≤ e.2) (hb : ∀ e ∈ vectorB, 0 ≤ e.2) :
    calculateCosineSimilarity vectorA vectorB ≤ 1 := by
  unfold calculateCosineSimilarity
  set ts := jsDedup (vectorA.map Prod.fst ++ vectorB.map Prod.fst) with hts
  simp only [cosineFold_eq]
  split
  · exact zero_le_one
  · rename_i hcond
    push_neg at hcond
    obtain ⟨hA0, hB0⟩ := hcond
    set f := fun t => getScore vectorA t with hf
    set g := fun t => getScore vectorB t with hg
    have hfn : ∀ t, 0 ≤ f t := fun t => getScore_nonneg _ ha t
    have hgn : ∀ t, 0 ≤ g t := fun t => getScore_nonneg _ hb t
    have hAnn : 0 ≤ (ts.map (fun t => f t * f t)).sum :=
      List.sum_nonneg (by
        intro x hx
        obtain ⟨t, _, rfl⟩ := List.mem_map.mp hx
        exact mul_self_nonneg _)
    have hBnn : 0 ≤ (ts.map (fun t => g t * g t)).sum :=
      List.sum_nonneg (by
        intro x hx
        obtain ⟨t, _, rfl⟩ := List.mem_map.mp hx
        exact mul_self_nonneg _)
    have hApos : 0 < (ts.map (fun t => f t * f t)).sum :=
      lt_of_le_of_ne hAnn (Ne.symm hA0)
    have hBpos : 0 < (ts.map (fun t => g t * g t)).sum :=
      lt_of_le_of_ne hBnn (Ne.symm hB0)
    have hden : 0 < Real.sqrt ((ts.map (fun t => f t * f t)).sum) *
        Real.sqrt ((ts.map (fun t => g t * g t)).sum) :=
      mul_pos (Real.sqrt_pos.mpr hApos) (Real.sqrt_pos.mpr hBpos)
    rw [div_le_one hden]
    exact dot_le_sqrt_mul_sqrt ts f g hfn hgn (jsDedup_nodup _)

theorem alGet_of_mem_nodup {α : Type} {v : List (String × α)} {k : String}
    {w : α} (h : (k, w) ∈ v) (hn : (v.map Prod.fst).Nodup) :
    alGet v k = some w := by
  induction v with
  | nil => simp at h
  | cons e rest ih =>
    obtain ⟨k0, v0⟩ := e
    rcases List.mem_cons.mp h with h | h
    · obtain ⟨rfl, rfl⟩ := Prod.mk.injEq .. ▸ h
      simp [alGet]
    · have hk : k0 ≠ k := by
        rintro rfl
        exact (List.nodup_cons.mp hn).1
          (List.mem_map.mpr ⟨(k0, w), h, rfl⟩)
    
      simp [alGet, hk]
      exact ih h (List.nodup_cons.mp hn).2

/-- Cosine similarity of a (shared) vector with itself: as soon as one
entry is strictly positive the magnitudes are non-zero and the quotient
collapses to 1. -/
theorem calculateCosineSimilarity_self (v : List (String × ℝ))
    (hnn : ∀ e ∈ v, 0 ≤ e.2) (hkeys : (v.map Prod.fst).Nodup)
    (hpos : ∃ e ∈ v, 0 < e.2) :
    calculateCosineSimilarity v v = 1 := by
  unfold calculateCosineSimilarity
  simp only [cosineFold_eq, jsDedup_append_self hkeys]
  set f := fun t => getScore v t with hf
  set S := ((v.map Prod.fst).map (fun t => f t * f t)).sum with hS
  have hSnn : 0 ≤ S := by
    refine List.sum_nonneg ?_
    intro x hx
    obtain ⟨t, _, rfl⟩ := List.mem_map.mp hx
    exact mul_self_nonneg _
  have hSpos : 0 < S := by
    obtain ⟨⟨t0, w⟩, hmem, hw⟩ := hpos
    have hget : f t0 = w := by
      simp only [hf, getScore, alGet_of_mem_nodup hmem hkeys, Option.getD_some]
    rw [hS, ← List.sum_toFinset _ ((by
      exact hkeys : ((v.map Prod.fst) : List String).Nodup))]
    refine Finset.sum_pos' (fun t _ => mul_self_nonneg _) ?_
    refine ⟨t0, ?_, ?_⟩
    · simp only [List.mem_toFinset]
      exact List.mem_map.mpr ⟨(t0, w), hmem, rfl⟩
    · rw [hget]
      exact mul_pos hw hw
  have hSne : S ≠ 0 := ne_of_gt hSpos
  rw [if_neg (by simp [hSne])]
  rw [Real.mul_self_sqrt hSnn]
  exact div_self hSne

/-! ### Graph construction invariants -/

theorem alGet_alistPush_self (g : List (String × List SemanticLink))
    (p : String) (x : SemanticLink) :
    alGet (alistPush g p x) p = some ((alGet g p).getD [] ++ [x]) := by
  induction g with
  | nil => simp [alistPush, alGet]
  | cons e rest ih =>
    obtain ⟨q, ls⟩ := e
    by_cases hq : q = p
    · subst hq
      simp [alistPush, alGet]
    · simp [alistPush, hq, alGet, ih]

theorem alGet_alistPush_ne (g : List (String × List SemanticLink))
    (p : String) (x : SemanticLink) {q : String} (h : q ≠ p) :
    alGet (alistPush g p x) q = alGet g q := by
  induction g with
  | nil => simp [alistPush, alGet, h, Ne.symm h]
  | cons e rest ih =>
    obtain ⟨q0, ls⟩ := e
    by_cases hq : q0 = p
    · subst hq
      simp [alistPush, alGet, Ne.symm h]
    · simp [alistPush, hq, alGet, ih]

/-- Pushing a link only ever appends: present entries survive with a
superset link list. -/
theorem alGet_alistPush_mono (g : List (String × List SemanticLink))
    (p : String) (x : SemanticLink) {q : String} {m : List SemanticLink}
    (h : alGet g q = some m) :
    ∃ m', alGet (alistPush g p x) q = some m' ∧ ∀ l ∈ m, l ∈ m' := by
  by_cases hq : q = p
  · subst hq
    refine ⟨m ++ [x], ?_, fun l hl => List.mem_append_left _ hl⟩
    rw [alGet_alistPush_self, h]
    simp
  · exact ⟨m, by rw [alGet_alistPush_ne _ _ _ hq]; exact h, fun l hl => hl⟩

/-- A per-entry invariant (`Q` on the key, `P` on key and link) is
preserved by `alistPush` whenever the pushed pair satisfies it. -/
theorem alistPush_all {Q : String → Prop} {P : String → SemanticLink → Prop}
    {g : List (String × List SemanticLink)} {p : String} {x : SemanticLink}
    (hg : ∀ e ∈ g, Q e.1 ∧ ∀ l ∈ e.2, P e.1 l) (hq : Q p) (hx : P p x) :
    ∀ e ∈ alistPush g p x, Q e.1 ∧ ∀ l ∈ e.2, P e.1 l := by
  induction g with
  | nil =>
    intro e he
    simp only [alistPush, List.mem_singleton] at he
    subst he
    exact ⟨hq, by simpa using hx⟩
  | cons e0 rest ih =>
    obtain ⟨q0, ls0⟩ := e0
    intro e he
    by_cases h0 : q0 = p
    · subst h0
      simp only [alistPush, if_pos rfl] at he
      rcases List.mem_cons.mp he with h | h
      · subst h
        refine ⟨(hg (q0, ls0) (by simp)).1, ?_⟩
        intro l hl
        rcases List.mem_append.mp hl with h | h
        · exact (hg (q0, ls0) (by simp)).2 l h
        · simp only [List.mem_singleton] at h
          subst h
          exact hx
      · exact hg e (List.mem_cons_of_mem _ h)
    · simp only [alistPush, if_neg h0] at he
      rcases List.mem_cons.mp he with h | h
      · subst h
        exact hg (q0, ls0) (by simp)
      · exact ih (fun e' he' => hg e' (List.mem_cons_of_mem _ he')) e h

/-- The symmetry invariant: every stored link has its mirror link with the
identical score. -/
def GraphSym (g : List (String × List SemanticLink)) : Prop :=
  ∀ (A B : String) (s : ℝ) (ls : List SemanticLink),
    alGet g A = some ls → (⟨B, s⟩ : SemanticLink) ∈ ls →
      ∃ ls', alGet g B = some ls' ∧ (⟨A, s⟩ : SemanticLink) ∈ ls'

theorem GraphSym_pairStep (vecs : List (String × List (String × ℝ)))
    (g : List (String × List SemanticLink)) (pathA pathB : String)
    (hg : GraphSym g) : GraphSym (pairStep vecs g pathA pathB) := by
  unfold pairStep
  cases hA : alGet vecs pathA with
  | none => exact hg
  | some vectorA =>
    cases hB : alGet vecs pathB with
    | none => exact hg
    | some vectorB =>
      simp only
      split
      · -- both directions pushed with the same score
        set s0 := calculateCosineSimilarity vectorA vectorB with hs0
        set g1 := alistPush g pathA ⟨pathB, s0⟩ with hg1
        set g2 := alistPush g1 pathB ⟨pathA, s0⟩ with hg2
        intro X Y t ls hls hmem
        by_cases hXB : X = pathB
        · subst hXB
          rw [hg2, alGet_alistPush_self] at hls
          have hlseq : ls = (alGet g1 X).getD [] ++ [⟨pathA, s0⟩] := by
            injection hls with h'
            exact h'.symm
          subst hlseq
          rcases List.mem_append.mp hmem with hold | hnew
          · by_cases hXA : X = pathA
            · -- pathA = pathB = X
              subst hXA
              rw [hg1, alGet_alistPush_self] at hold
              simp only [Option.getD_some] at hold
              rcases List.mem_append.mp hold with hold2 | hnew2
              · cases hga : alGet g X with
                | none =>
                  rw [hga] at hold2
                  simp at hold2
                | some m =>
                  rw [hga] at hold2
                  simp only [Option.getD_some] at hold2
                  obtain ⟨ls', hls', hmir⟩ := hg X Y t m hga hold2
                  obtain ⟨m1, hm1, hsub1⟩ :=
                    alGet_alistPush_mono g X ⟨X, s0⟩ hls'
                  obtain ⟨m2, hm2, hsub2⟩ :=
                    alGet_alistPush_mono g1 X ⟨X, s0⟩ (hg1 ▸ hm1)
                  exact ⟨m2, by rw [hg2]; exact hm2, hsub2 _ (hsub1 _ hmir)⟩
              · simp only [List.mem_singleton, SemanticLink.mk.injEq] at hnew2
                obtain ⟨rfl, rfl⟩ := hnew2
                refine ⟨_, by rw [hg2, alGet_alistPush_self], ?_⟩
                exact List.mem_append_right _ (by simp)
            · -- X = pathB ≠ pathA
              rw [hg1, alGet_alistPush_ne _ _ _ hXA] at hold
              cases hga : alGet g X with
              | none =>
                rw [hga] at hold
                simp at hold
              | some m =>
                rw [hga] at hold
                simp only [Option.getD_some] at hold
                obtain ⟨ls', hls', hmir⟩ := hg X Y t m hga hold
                obtain ⟨m1, hm1, hsub1⟩ :=
                  alGet_alistPush_mono g pathA ⟨X, s0⟩ hls'
                obtain ⟨m2, hm2, hsub2⟩ :=
                  alGet_alistPush_mono g1 X ⟨pathA, s0⟩ (hg1 ▸ hm1)
                exact ⟨m2, by rw [hg2]; exact hm2, hsub2 _ (hsub1 _ hmir)⟩
          · -- the freshly pushed mirror link ⟨pathA, s0⟩
            simp only [List.mem_singleton, SemanticLink.mk.injEq] at hnew
            obtain ⟨rfl, rfl⟩ := hnew
            have h1 : alGet g1 Y = some ((alGet g Y).getD [] ++ [⟨X, s0⟩]) := by
              rw [hg1, alGet_alistPush_self]
            by_cases hYB : Y = X
            · subst hYB
              refine ⟨_, by rw [hg2, alGet_alistPush_self], ?_⟩
              exact List.mem_append_right _ (by simp)
            · rw [hg2]
              obtain ⟨m2, hm2, hsub2⟩ :=
                alGet_alistPush_mono g1 X ⟨Y, s0⟩ h1
              exact ⟨m2, hm2, hsub2 _ (List.mem_append_right _ (by simp))⟩
        · -- X ≠ pathB
          rw [hg2, alGet_alistPush_ne _ _ _ hXB] at hls
          by_cases hXA : X = pathA
          · subst hXA
            rw [hg1, alGet_alistPush_self] at hls
            have hlseq : ls = (alGet g X).getD [] ++ [⟨pathB, s0⟩] := by
              injection hls with h'
              exact h'.symm
            subst hlseq
            rcases List.mem_append.mp hmem with hold | hnew
            · cases hga : alGet g X with
              | none =>
                rw [hga] at hold
                simp at hold
              | some m =>
                rw [hga] at hold
                simp only [Option.getD_some] at hold
                obtain ⟨ls', hls', hmir⟩ := hg X Y t m hga hold
                obtain ⟨m1, hm1, hsub1⟩ :=
                  alGet_alistPush_mono g X ⟨pathB, s0⟩ hls'
                obtain ⟨m2, hm2, hsub2⟩ :=
                  alGet_alistPush_mono g1 pathB ⟨X, s0⟩ (hg1 ▸ hm1)
                exact ⟨m2, by rw [hg2]; exact hm2, hsub2 _ (hsub1 _ hmir)⟩
            · simp only [List.mem_singleton, SemanticLink.mk.injEq] at hnew
              obtain ⟨rfl, rfl⟩ := hnew
              refine ⟨_, by rw [hg2, alGet_alistPush_self], ?_⟩
              exact List.mem_append_right _ (by simp)
          · -- untouched entry
            rw [hg1, alGet_alistPush_ne _ _ _ hXA] at hls
            obtain ⟨ls', hls', hmir⟩ := hg X Y t ls hls hmem
            obtain ⟨m1, hm1, hsub1⟩ :=
              alGet_alistPush_mono g pathA ⟨pathB, s0⟩ hls'
            obtain ⟨m2, hm2, hsub2⟩ :=
              alGet_alistPush_mono g1 pathB ⟨pathA, s0⟩ (hg1 ▸ hm1)
            exact ⟨m2, by rw [hg2]; exact hm2, hsub2 _ (hsub1 _ hmir)⟩
      · exact hg

theorem GraphSym_foldl (vecs : List (String × List (String × ℝ)))
    (a : String) (rest : List String)
    (g : List (String × List SemanticLink)) (hg : GraphSym g) :
    GraphSym (rest.foldl (fun g' b => pairStep vecs g' a b) g) := by
  induction rest generalizing g with
  | nil => exact hg
  | cons b rest ih =>
    simp only [List.foldl_cons]
    exact ih _ (GraphSym_pairStep vecs g a b hg)

theorem GraphSym_pairLoop (vecs : List (String × List (String × ℝ)))
    (paths : List String) (g : List (String × List SemanticLink))
    (hg : GraphSym g) : GraphSym (pairLoop vecs paths g) := by
  induction paths generalizing g with
  | nil => exact hg
  | cons a rest ih =>
    exact ih _ (GraphSym_foldl vecs a rest g hg)

theorem insertLinkDesc_perm (x : SemanticLink) (l : List SemanticLink) :
    (insertLinkDesc x l).Perm (x :: l) := by
  induction l with
  | nil => simp [insertLinkDesc]
  | cons y l ih =>
    rw [insertLinkDesc]
    split
    · exact ((ih.cons y).trans (List.Perm.swap x y l))
    · exact List.Perm.refl _

theorem sortLinksDesc_perm (ls : List SemanticLink) :
    (sortLinksDesc ls).Perm ls := by
  induction ls with
  | nil => simp [sortLinksDesc]
  | cons x l ih =>
    unfold sortLinksDesc at *
    simp only [List.foldr_cons]
    exact (insertLinkDesc_perm x _).trans (ih.cons x)

theorem mem_sortLinksDesc {l : SemanticLink} {ls : List SemanticLink} :
    l ∈ sortLinksDesc ls ↔ l ∈ ls :=
  (sortLinksDesc_perm ls).mem_iff

theorem alGet_map_sort (g : List (String × List SemanticLink)) (q : String) :
    alGet (g.map (fun e => (e.1, sortLinksDesc e.2))) q =
      (alGet g q).map sortLinksDesc := by
  induction g with
  | nil => simp [alGet]
  | cons e rest ih =>
    obtain ⟨q0, ls0⟩ := e
    by_cases hq : q0 = q
    · subst hq
      simp [alGet]
    · simp [alGet, hq, ih]

/-- C2: in the graph built by `buildSemanticGraph`, every stored link is
mirrored: if `A`'s link list contains `{relatedPath := B, score := s}` then
`B`'s link list contains `{relatedPath := A, score := s}` with the
identical score. -/
theorem buildSemanticGraph_symm (fs : List (String × String))
    (A B : String) (s : ℝ) (lsA : List SemanticLink)
    (hA : alGet (buildSemanticGraph fs) A = some lsA)
    (hmem : (⟨B, s⟩ : SemanticLink) ∈ lsA) :
    ∃ lsB, alGet (buildSemanticGraph fs) B = some lsB ∧
      (⟨A, s⟩ : SemanticLink) ∈ lsB := by
  unfold buildSemanticGraph at *
  by_cases hlen : (fs.map Prod.fst).length < 2
  · rw [if_pos hlen] at hA
    simp [alGet] at hA
  · rw [if_neg hlen] at hA ⊢
    simp only [alGet_map_sort] at hA ⊢
    have hsym : GraphSym (pairLoop (tfidfVectorsOf fs) (fs.map Prod.fst) []) :=
      GraphSym_pairLoop _ _ [] (by
        intro A' B' s' ls' h' _
        simp [alGet] at h')
    cases hg : alGet (pairLoop (tfidfVectorsOf fs) (fs.map Prod.fst) []) A with
    | none => rw [hg] at hA; simp at hA
    | some m =>
      rw [hg] at hA
      simp only [Option.map_some'] at hA
      have hm : lsA = sortLinksDesc m := by
        injection hA with h'
        exact h'.symm
      subst hm
      have hmem' : (⟨B, s⟩ : SemanticLink) ∈ m := mem_sortLinksDesc.mp hmem
      obtain ⟨lsB, hB, hmirror⟩ := hsym A B s m hg hmem'
      refine ⟨sortLinksDesc lsB, ?_, mem_sortLinksDesc.mpr hmirror⟩
      rw [hB]
      rfl

/-- C2 witness corpus: two identical summaries and one unrelated one. -/
def corpus3 : List (String × String) :=
  [("a.ts", "alpha beta"), ("b.ts", "alpha beta"), ("c.ts", "gamma")]

theorem pairStep_all {Q : String → Prop} {P : String → SemanticLink → Prop}
    (vecs : List (String × List (String × ℝ)))
    (g : List (String × List SemanticLink)) (pathA pathB : String)
    (hg : ∀ e ∈ g, Q e.1 ∧ ∀ l ∈ e.2, P e.1 l)
    (hnew : ∀ vA vB, alGet vecs pathA = some vA →
      alGet vecs pathB = some vB →
      0.01 < calculateCosineSimilarity vA vB →
      Q pathA ∧ Q pathB ∧
        P pathA ⟨pathB, calculateCosineSimilarity vA vB⟩ ∧
        P pathB ⟨pathA, calculateCosineSimilarity vA vB⟩) :
    ∀ e ∈ pairStep vecs g pathA pathB, Q e.1 ∧ ∀ l ∈ e.2, P e.1 l := by
  unfold pairStep
  cases hA : alGet vecs pathA with
  | none => exact hg
  | some vA =>
    cases hB : alGet vecs pathB with
    | none => exact hg
    | some vB =>
      simp only
      split
      · rename_i hsim
        have hn := hnew vA vB hA hB hsim
        exact alistPush_all (alistPush_all hg hn.1 hn.2.2.1) hn.2.1 hn.2.2.2
      · exact hg

theorem foldl_pairStep_all {Q : String → Prop}
    {P : String → SemanticLink → Prop}
    (vecs : List (String × List (String × ℝ))) (a : String)
    (rest : List String) (g : List (String × List SemanticLink))
    (hg : ∀ e ∈ g, Q e.1 ∧ ∀ l ∈ e.2, P e.1 l)
    (hnew : ∀ b ∈ rest, ∀ vA vB, alGet vecs a = some vA →
      alGet vecs b = some vB →
      0.01 < calculateCosineSimilarity vA vB →
      Q a ∧ Q b ∧ P a ⟨b, calculateCosineSimilarity vA vB⟩ ∧
        P b ⟨a, calculateCosineSimilarity vA vB⟩) :
    ∀ e ∈ rest.foldl (fun g' b => pairStep vecs g' a b) g,
      Q e.1 ∧ ∀ l ∈ e.2, P e.1 l := by
  induction rest generalizing g with
  | nil => exact hg
  | cons b rest ih =>
    simp only [List.foldl_cons]
    exact ih _
      (pairStep_all vecs g a b hg (hnew b (by simp)))
      (fun b' hb' => hnew b' (by simp [hb']))

theorem pairLoop_all {Q : String → Prop} {P : String → SemanticLink → Prop}
    (vecs : List (String × List (String × ℝ))) (paths : List String)
    (g : List (String × List SemanticLink)) (hpaths : paths.Nodup)
    (hg : ∀ e ∈ g, Q e.1 ∧ ∀ l ∈ e.2, P e.1 l)
    (hnew : ∀ a b, a ∈ paths → b ∈ paths → a ≠ b →
      ∀ vA vB, alGet vecs a = some vA → alGet vecs b = some vB →
      0.01 < calculateCosineSimilarity vA vB →
      Q a ∧ Q b ∧ P a ⟨b, calculateCosineSimilarity vA vB⟩ ∧
        P b ⟨a, calculateCosineSimilarity vA vB⟩) :
    ∀ e ∈ pairLoop vecs paths g, Q e.1 ∧ ∀ l ∈ e.2, P e.1 l := by
  induction paths generalizing g with
  | nil => exact hg
  | cons a rest ih =>
    unfold pairLoop
    have hg' := foldl_pairStep_all vecs a rest g hg (by
      intro b hb
      have hne : a ≠ b := by
        rintro rfl
        exact (List.nodup_cons.mp hpaths).1 hb
      exact hnew a b (by simp) (by simp [hb]) hne)
    exact ih _ (List.nodup_cons.mp hpaths).2 hg'
      (fun a' b' ha' hb' => hnew a' b' (by simp [ha']) (by simp [hb']))

/-- C3: every link stored by `buildSemanticGraph` has a score strictly
above the `0.01` threshold and at most 1. -/
theorem buildSemanticGraph_score_bounds (fs : List (String × String))
    (hnd : ((fs.map Prod.fst) : List String).Nodup)
    (p : String) (ls : List SemanticLink) (l : SemanticLink)
    (hp : (p, ls) ∈ buildSemanticGraph fs) (hl : l ∈ ls) :
    0.01 < l.score ∧ l.score ≤ 1 := by
  unfold buildSemanticGraph at hp
  by_cases hlen : (fs.map Prod.fst).length < 2
  · rw [if_pos hlen] at hp
    simp at hp
  · rw [if_neg hlen] at hp
    simp only [List.mem_map] at hp
    obtain ⟨⟨p0, ls0⟩, hmem0, heq⟩ := hp
    have hps : p0 = p ∧ sortLinksDesc ls0 = ls := by
      constructor
      · exact congrArg Prod.fst heq
      · exact congrArg Prod.snd heq
    obtain ⟨rfl, hsort⟩ := hps
    have h2 : 2 ≤ fs.length := by
      simp only [List.length_map] at hlen
      omega
    have hall := pairLoop_all (Q := fun _ => True)
      (P := fun _ l => 0.01 < l.score ∧ l.score ≤ 1)
      (tfidfVectorsOf fs) (fs.map Prod.fst) [] hnd
      (by intro e he; simp at he)
      (by
        intro a b _ _ _ vA vB hA hB hsim
        have hub : calculateCosineSimilarity vA vB ≤ 1 :=
          calculateCosineSimilarity_le_one vA vB
            (tfidfVectorsOf_nonneg fs h2 a vA hA)
            (tfidfVectorsOf_nonneg fs h2 b vB hB)
        exact ⟨trivial, trivial, ⟨hsim, hub⟩, ⟨hsim, hub⟩⟩)
    have := (hall (p0, ls0) hmem0).2 l (by
      rw [← hsort] at hl
      exact mem_sortLinksDesc.mp hl)
    exact this

/-- C10: every key of the graph is a corpus path, and every link points to
a corpus path different from its own key (no self-links). -/
theorem buildSemanticGraph_keys_no_self (fs : List (String × String))
    (hnd : ((fs.map Prod.fst) : List String).Nodup)
    (p : String) (ls : List SemanticLink)
    (hp : (p, ls) ∈ buildSemanticGraph fs) :
    p ∈ fs.map Prod.fst ∧
      ∀ l ∈ ls, l.relatedPath ∈ fs.map Prod.fst ∧ l.relatedPath ≠ p := by
  unfold buildSemanticGraph at hp
  by_cases hlen : (fs.map Prod.fst).length < 2
  · rw [if_pos hlen] at hp
    simp at hp
  · rw [if_neg hlen] at hp
    simp only [List.mem_map] at hp
    obtain ⟨⟨p0, ls0⟩, hmem0, heq⟩ := hp
    have hps : p0 = p ∧ sortLinksDesc ls0 = ls := by
      constructor
      · exact congrArg Prod.fst heq
      · exact congrArg Prod.snd heq
    obtain ⟨rfl, hsort⟩ := hps
    have hall := pairLoop_all (Q := fun q => q ∈ fs.map Prod.fst)
      (P := fun q l => l.relatedPath ∈ fs.map Prod.fst ∧ l.relatedPath ≠ q)
      (tfidfVectorsOf fs) (fs.map Prod.fst) [] hnd
      (by intro e he; simp at he)
      (by
        intro a b ha hb hab vA vB hA hB hsim
        exact ⟨ha, hb, ⟨hb, Ne.symm hab⟩, ⟨ha, hab⟩⟩)
    refine ⟨(hall (p0, ls0) hmem0).1, ?_⟩
    intro l hl
    exact (hall (p0, ls0) hmem0).2 l (by
      rw [← hsort] at hl
      exact mem_sortLinksDesc.mp hl)

theorem tfMaps3_a : (alGet (tfMapsOf corpus3) "a.ts").getD [] =
    [("alpha", 1), ("beta", 1)] := by decide

theorem tfMaps3_c : (alGet (tfMapsOf corpus3) "c.ts").getD [] =
    [("gamma", 1)] := by decide

theorem df3_alpha : (alGet (dfMapOf corpus3) "alpha").getD 1 = 2 := by decide

theorem df3_beta : (alGet (dfMapOf corpus3) "beta").getD 1 = 2 := by decide

theorem df3_gamma : (alGet (dfMapOf corpus3) "gamma").getD 1 = 1 := by decide

theorem tfidfFor3_a : tfidfFor corpus3 "a.ts" =
    [("alpha", Real.log (3 / 2)), ("beta", Real.log (3 / 2))] := by
  unfold tfidfFor
  rw [tfMaps3_a]
  simp only [List.map_cons, List.map_nil, df3_alpha, df3_beta]
  norm_num [totalDocsOf, corpus3]

theorem tfMaps3_b : (alGet (tfMapsOf corpus3) "b.ts").getD [] =
    [("alpha", 1), ("beta", 1)] := by decide

theorem tfidfFor3_b : tfidfFor corpus3 "b.ts" =
    [("alpha", Real.log (3 / 2)), ("beta", Real.log (3 / 2))] := by
  unfold tfidfFor
  rw [tfMaps3_b]
  simp only [List.map_cons, List.map_nil, df3_alpha, df3_beta]
  norm_num [totalDocsOf, corpus3]

theorem tfidfFor3_c : tfidfFor corpus3 "c.ts" = [("gamma", Real.log 3)] := by
  unfold tfidfFor
  rw [tfMaps3_c]
  simp only [List.map_cons, List.map_nil, df3_gamma]
  norm_num [totalDocsOf, corpus3]

theorem termFreqOf_values_pos (s : String) :
    ∀ e ∈ termFreqOf s, 1 ≤ e.2 := by
  unfold termFreqOf
  generalize tokenizeWords s = toks
  have hstep : ∀ (m : List (String × Nat)) (k : String),
      (∀ e ∈ m, 1 ≤ e.2) → ∀ e ∈ alIncr m k, 1 ≤ e.2 := by
    intro m k hm
    induction m with
    | nil =>
      intro e he
      simp [alIncr] at he
      simp [he]
    | cons e0 rest ih =>
      obtain ⟨k0, v0⟩ := e0
      intro e he
      rw [alIncr] at he
      by_cases h0 : k0 = k
      · rw [if_pos h0] at he
        rcases List.mem_cons.mp he with rfl | h
        · show 1 ≤ v0 + 1
          omega
        · exact hm e (List.mem_cons_of_mem _ h)
      · rw [if_neg h0] at he
        rcases List.mem_cons.mp he with rfl | h
        · exact hm _ (by simp)
        · exact ih (fun e' he' => hm e' (List.mem_cons_of_mem _ he')) e h
  have main : ∀ (toks : List String) (m : List (String × Nat)),
      (∀ e ∈ m, 1 ≤ e.2) →
      ∀ e ∈ toks.foldl (fun m token =>
        if token ∉ STOP_WORDS ∧ 1 < token.length then alIncr m token else m)
        m, 1 ≤ e.2 := by
    intro toks
    induction toks with
    | nil => intro m hm; simpa using hm
    | cons t rest ih =>
      intro m hm
      simp only [List.foldl_cons]
      by_cases hc : t ∉ STOP_WORDS ∧ 1 < t.length
      · rw [if_pos hc]
        exact ih _ (hstep m t hm)
      · rw [if_neg hc]
        exact ih _ hm
  exact main toks [] (by simp)

theorem sim3_ab :
    calculateCosineSimilarity (tfidfFor corpus3 "a.ts")
      (tfidfFor corpus3 "b.ts") = 1 := by
  rw [tfidfFor3_a, tfidfFor3_b]
  apply calculateCosineSimilarity_self
  · intro e he
    simp only [List.mem_cons, List.mem_singleton] at he
    rcases he with rfl | rfl | h
    · exact Real.log_nonneg (by norm_num)
    · exact Real.log_nonneg (by norm_num)
    · simp at h
  · simp
  · refine ⟨("alpha", Real.log (3 / 2)), by simp, ?_⟩
    exact Real.log_pos (by norm_num)

theorem sim3_ac :
    calculateCosineSimilarity (tfidfFor corpus3 "a.ts")
      (tfidfFor corpus3 "c.ts") = 0 := by
  rw [tfidfFor3_a, tfidfFor3_c]
  unfold calculateCosineSimilarity
  have hterms : jsDedup (["alpha", "beta"] ++ ["gamma"]) =
      ["alpha", "beta", "gamma"] := by rfl
  simp only [cosineFold_eq, List.map_cons, List.map_nil]
  simp only [hterms, List.map_cons, List.map_nil, List.sum_cons,
    List.sum_nil]
  have ha1 : getScore [("alpha", Real.log (3 / 2)),
      ("beta", Real.log (3 / 2))] "alpha" = Real.log (3 / 2) := by
    simp [getScore, alGet]
  have ha2 : getScore [("alpha", Real.log (3 / 2)),
      ("beta", Real.log (3 / 2))] "beta" = Real.log (3 / 2) := by
    simp [getScore, alGet]
  have ha3 : getScore [("alpha", Real.log (3 / 2)),
      ("beta", Real.log (3 / 2))] "gamma" = 0 := by
    simp [getScore, alGet]
  have hc1 : getScore [("gamma", Real.log 3)] "alpha" = 0 := by
    simp [getScore, alGet]
  have hc2 : getScore [("gamma", Real.log 3)] "beta" = 0 := by
    simp [getScore, alGet]
  have hc3 : getScore [("gamma", Real.log 3)] "gamma" = Real.log 3 := by
    simp [getScore, alGet]
  rw [ha1, ha2, ha3, hc1, hc2, hc3]
  split
  · rfl
  · simp

theorem sim3_bc :
    calculateCosineSimilarity (tfidfFor corpus3 "b.ts")
      (tfidfFor corpus3 "c.ts") = 0 := by
  rw [tfidfFor3_b, ← tfidfFor3_a]
  exact sim3_ac

theorem vecs3_a : alGet (tfidfVectorsOf corpus3) "a.ts" =
    some (tfidfFor corpus3 "a.ts") := by
  unfold tfidfVectorsOf
  exact alGet_map_pair_of_mem _ _ (by simp [corpus3])

theorem vecs3_b : alGet (tfidfVectorsOf corpus3) "b.ts" =
    some (tfidfFor corpus3 "b.ts") := by
  unfold tfidfVectorsOf
  exact alGet_map_pair_of_mem _ _ (by simp [corpus3])

theorem vecs3_c : alGet (tfidfVectorsOf corpus3) "c.ts" =
    some (tfidfFor corpus3 "c.ts") := by
  unfold tfidfVectorsOf
  exact alGet_map_pair_of_mem _ _ (by simp [corpus3])

theorem pairStep3_ab :
    pairStep (tfidfVectorsOf corpus3) [] "a.ts" "b.ts" =
      [("a.ts", [⟨"b.ts", 1⟩]), ("b.ts", [⟨"a.ts", 1⟩])] := by
  unfold pairStep
  rw [vecs3_a, vecs3_b]
  simp only [sim3_ab]
  rw [if_pos (by norm_num)]
  simp [alistPush]

theorem pairStep3_ac (g : List (String × List SemanticLink)) :
    pairStep (tfidfVectorsOf corpus3) g "a.ts" "c.ts" = g := by
  unfold pairStep
  rw [vecs3_a, vecs3_c]
  simp only [sim3_ac]
  rw [if_neg (by norm_num)]

theorem pairStep3_bc (g : List (String × List SemanticLink)) :
    pairStep (tfidfVectorsOf corpus3) g "b.ts" "c.ts" = g := by
  unfold pairStep
  rw [vecs3_b, vecs3_c]
  simp only [sim3_bc]
  rw [if_neg (by norm_num)]

theorem graph3_eq : buildSemanticGraph corpus3 =
    [("a.ts", [⟨"b.ts", 1⟩]), ("b.ts", [⟨"a.ts", 1⟩])] := by
  unfold buildSemanticGraph
  rw [if_neg (by simp [corpus3])]
  have hpaths : corpus3.map Prod.fst = ["a.ts", "b.ts", "c.ts"] := by
    simp [corpus3]
  rw [hpaths]
  simp only [pairLoop, List.foldl_cons, List.foldl_nil]
  rw [pairStep3_ab, pairStep3_ac, pairStep3_bc]
  simp [sortLinksDesc, insertLinkDesc]

/-- C2 witness: in the three-document corpus `corpus3` the edge
`a.ts → b.ts` with score 1 is mirrored as `b.ts → a.ts` with score 1. -/
theorem buildSemanticGraph_symm_witness :
    ∃ lsB, alGet (buildSemanticGraph corpus3) "b.ts" = some lsB ∧
      (⟨"a.ts", (1 : ℝ)⟩ : SemanticLink) ∈ lsB :=
  buildSemanticGraph_symm corpus3 "a.ts" "b.ts" 1 [⟨"b.ts", 1⟩]
    (by rw [graph3_eq]; rfl) (by simp)

/-- C3 witness: the concrete link stored for `a.ts` in `corpus3` has a
score strictly above 0.01 and at most 1. -/
theorem buildSemanticGraph_score_bounds_witness :
    0.01 < (⟨"b.ts", (1 : ℝ)⟩ : SemanticLink).score ∧
      (⟨"b.ts", (1 : ℝ)⟩ : SemanticLink).score ≤ 1 :=
  buildSemanticGraph_score_bounds corpus3 (by decide) "a.ts"
    [⟨"b.ts", 1⟩] ⟨"b.ts", 1⟩ (by rw [graph3_eq]; simp) (by simp)

/-- C10 witness: the key `a.ts` of the graph over `corpus3` is a corpus
path and its only link points to the distinct corpus path `b.ts`. -/
theorem buildSemanticGraph_keys_no_self_witness :
    "a.ts" ∈ corpus3.map Prod.fst ∧
      ∀ l ∈ ([⟨"b.ts", 1⟩] : List SemanticLink),
        l.relatedPath ∈ corpus3.map Prod.fst ∧ l.relatedPath ≠ "a.ts" :=
  buildSemanticGraph_keys_no_self corpus3 (by decide) "a.ts"
    [⟨"b.ts", 1⟩] (by rw [graph3_eq]; simp)

/-- C5 (amended): two documents with identical summary text whose shared
terms include at least one surviving term that does **not** occur in every
document of the corpus have cosine similarity exactly 1 between their
TF-IDF vectors. -/
theorem identical_docs_similarity_one (fs : List (String × String))
    (A B t : String) (hAB : A ≠ B)
    (hA : alGet fs A = some t) (hB : alGet fs B = some t)
    (hterm : ∃ term cnt, alGet (termFreqOf t) term = some cnt ∧
      (alGet (dfMapOf fs) term).getD 1 < fs.length) :
    calculateCosineSimilarity
      ((alGet (tfidfVectorsOf fs) A).getD [])
      ((alGet (tfidfVectorsOf fs) B).getD []) = 1 := by
  have hAmem : A ∈ fs.map Prod.fst :=
    List.mem_map.mpr ⟨(A, t), alGet_mem hA, rfl⟩
  have hBmem : B ∈ fs.map Prod.fst :=
    List.mem_map.mpr ⟨(B, t), alGet_mem hB, rfl⟩
  have hvA : alGet (tfidfVectorsOf fs) A = some (tfidfFor fs A) := by
    unfold tfidfVectorsOf
    exact alGet_map_pair_of_mem _ _ hAmem
  have hvB : alGet (tfidfVectorsOf fs) B = some (tfidfFor fs B) := by
    unfold tfidfVectorsOf
    exact alGet_map_pair_of_mem _ _ hBmem
  have htfA : alGet (tfMapsOf fs) A = some (termFreqOf t) := by
    unfold tfMapsOf
    rw [alGet_map_pair_of_mem _ _ hAmem, hA]
    rfl
  have htfB : alGet (tfMapsOf fs) B = some (termFreqOf t) := by
    unfold tfMapsOf
    rw [alGet_map_pair_of_mem _ _ hBmem, hB]
    rfl
  have hsame : tfidfFor fs B = tfidfFor fs A := by
    unfold tfidfFor
    rw [htfA, htfB]
  -- totalDocs ≥ 2, because some document frequency is strictly below it
  obtain ⟨term, cnt, hcnt, hdflt⟩ := hterm
  have hdfge : 1 ≤ (alGet (dfMapOf fs) term).getD 1 := by
    cases hv : alGet (dfMapOf fs) term with
    | none => simp
    | some v =>
      simpa using (dfMapOf_bounds fs term v hv).1
  have h2 : 2 ≤ fs.length := by omega
  rw [hvA, hvB, Option.getD_some, Option.getD_some, hsame]
  apply calculateCosineSimilarity_self
  · exact tfidfFor_nonneg fs h2 A
  · unfold tfidfFor
    rw [htfA, Option.getD_some]
    have : (List.map
        (fun e => (e.1, (e.2 : ℝ) *
          Real.log ((totalDocsOf fs : ℝ) /
            ((alGet (dfMapOf fs) e.1).getD 1 : ℝ)))) (termFreqOf t)).map
          Prod.fst = (termFreqOf t).map Prod.fst := by
      rw [List.map_map]
      rfl
    rw [this]
    exact termFreqOf_keys_nodup t
  · -- the distinguished term has a strictly positive TF-IDF weight
    refine ⟨(term, (cnt : ℝ) *
      Real.log ((totalDocsOf fs : ℝ) /
        ((alGet (dfMapOf fs) term).getD 1 : ℝ))), ?_, ?_⟩
    · unfold tfidfFor
      rw [htfA, Option.getD_some]
      exact List.mem_map.mpr ⟨(term, cnt), alGet_mem hcnt, rfl⟩
    · have hcntpos : 0 < (cnt : ℝ) := by
        have := termFreqOf_values_pos t (term, cnt) (alGet_mem hcnt)
        simp only at this
        exact_mod_cast Nat.lt_of_lt_of_le Nat.zero_lt_one this
      have hdfpos : (0 : ℝ) < ((alGet (dfMapOf fs) term).getD 1 : ℝ) := by
        exact_mod_cast Nat.lt_of_lt_of_le Nat.zero_lt_one hdfge
      have hratio : (1 : ℝ) <
          (totalDocsOf fs : ℝ) / ((alGet (dfMapOf fs) term).getD 1 : ℝ) := by
        rw [lt_div_iff₀ hdfpos, one_mul]
        unfold totalDocsOf
        exact_mod_cast hdflt
      exact mul_pos hcntpos (Real.log_pos hratio)

/-- C5 witness: in `corpus3`, `a.ts` and `b.ts` share the summary
`"alpha beta"`, the surviving term `"alpha"` occurs in 2 < 3 documents,
and the two TF-IDF vectors have cosine similarity exactly 1. -/
theorem identical_docs_similarity_one_witness :
    calculateCosineSimilarity
      ((alGet (tfidfVectorsOf corpus3) "a.ts").getD [])
      ((alGet (tfidfVectorsOf corpus3) "b.ts").getD []) = 1 :=
  identical_docs_similarity_one corpus3 "a.ts" "b.ts" "alpha beta"
    (by decide) (by decide) (by decide)
    ⟨"alpha", 1, by decide, by decide⟩

/-- C5 counterexample corpus: exactly two documents with the identical
summary `"hello"`. -/
def corpus2 : List (String × String) := [("a.ts", "hello"), ("b.ts", "hello")]

theorem tfMaps2_a : (alGet (tfMapsOf corpus2) "a.ts").getD [] =
    [("hello", 1)] := by decide

theorem tfMaps2_b : (alGet (tfMapsOf corpus2) "b.ts").getD [] =
    [("hello", 1)] := by decide

theorem df2_hello : (alGet (dfMapOf corpus2) "hello").getD 1 = 2 := by decide

theorem tfidfFor2_a : tfidfFor corpus2 "a.ts" = [("hello", 0)] := by
  unfold tfidfFor
  rw [tfMaps2_a]
  simp only [List.map_cons, List.map_nil, df2_hello]
  norm_num [totalDocsOf, corpus2]

theorem tfidfFor2_b : tfidfFor corpus2 "b.ts" = [("hello", 0)] := by
  unfold tfidfFor
  rw [tfMaps2_b]
  simp only [List.map_cons, List.map_nil, df2_hello]
  norm_num [totalDocsOf, corpus2]

/-- C5 counterexample: in the two-document corpus `corpus2` the summaries
of `a.ts` and `b.ts` are identical and contain the surviving term
`"hello"`, yet the cosine similarity between their TF-IDF vectors computed
during `buildSemanticGraph` is 0, not 1: every shared term occurs in all
documents, so all IDF weights are `ln 1 = 0`, both vectors are zero
vectors, and the zero-magnitude guard returns 0. -/
theorem identical_docs_similarity_counterexample :
    alGet corpus2 "a.ts" = some "hello" ∧
    alGet corpus2 "b.ts" = some "hello" ∧
    alGet (termFreqOf "hello") "hello" = some 1 ∧
    calculateCosineSimilarity
      ((alGet (tfidfVectorsOf corpus2) "a.ts").getD [])
      ((alGet (tfidfVectorsOf corpus2) "b.ts").getD []) = 0 := by
  refine ⟨by decide, by decide, by decide, ?_⟩
  have hvA : alGet (tfidfVectorsOf corpus2) "a.ts" =
      some (tfidfFor corpus2 "a.ts") := by
    unfold tfidfVectorsOf
    exact alGet_map_pair_of_mem _ _ (by simp [corpus2])
  have hvB : alGet (tfidfVectorsOf corpus2) "b.ts" =
      some (tfidfFor corpus2 "b.ts") := by
    unfold tfidfVectorsOf
    exact alGet_map_pair_of_mem _ _ (by simp [corpus2])
  rw [hvA, hvB, Option.getD_some, Option.getD_some, tfidfFor2_a, tfidfFor2_b]
  unfold calculateCosineSimilarity
  have hterms : jsDedup (["hello"] ++ ["hello"]) = ["hello"] := by rfl
  simp only [cosineFold_eq, List.map_cons, List.map_nil]
  simp only [hterms, List.map_cons, List.map_nil, List.sum_cons,
    List.sum_nil]
  have h0 : getScore [(("hello" : String), (0 : ℝ))] "hello" = 0 := by
    simp [getScore, alGet]
  rw [h0]
  norm_num

/-! ## Part 2: the budgeted summarizer
(`semanticLinker.ts` lines 353-857 and `codeAnalysisUtils.ts`) -/

/-- `vscode.Position`: line and character, embedded as `Int` (the sources
perform defensive sign checks on line numbers). -/
structure Pos where
  line : Int
  character : Int
deriving DecidableEq, Repr

/-- `vscode.Range`; the field `endPos` embeds the source's `end` (a
reserved word in Lean). -/
structure Range where
  start : Pos
  endPos : Pos
deriving DecidableEq, Repr

/-- `Position.isBefore`: lexicographic (line, character) order. -/
def posLt (a b : Pos) : Prop :=
  a.line < b.line ∨ (a.line = b.line ∧ a.character < b.character)

instance (a b : Pos) : Decidable (posLt a b) := by
  unfold posLt
  infer_instance

/-- `Position.isBeforeOrEqual`. -/
def posLe (a b : Pos) : Prop := posLt a b ∨ a = b

instance (a b : Pos) : Decidable (posLe a b) := by
  unfold posLe
  infer_instance

/-- `Position.Max`. -/
def posMax (a b : Pos) : Pos := if posLt a b then b else a

/-- `Position.Min`. -/
def posMin (a b : Pos) : Pos := if posLt a b then a else b

/-- `Range.intersection`: the overlap of two ranges, or `none` when they
are disjoint (`start.isAfter(end)`). -/
def rangeIntersection (a b : Range) : Option Range :=
  let start := posMax b.start a.start
  let e := posMin b.endPos a.endPos
  if posLt e start then none else some ⟨start, e⟩

/-- `Range.isEmpty`: start equals end. -/
def rangeIsEmpty (r : Range) : Bool := decide (r.start = r.endPos)

/-- `Range.contains(position)`. -/
def rangeContains (r : Range) (p : Pos) : Prop :=
  posLe r.start p ∧ posLe p r.endPos

instance (r : Range) (p : Pos) : Decidable (rangeContains r p) := by
  unfold rangeContains
  infer_instance

/-- `vscode.DocumentSymbol` (name, detail, kind as the numeric
`SymbolKind` enum value, full range, selection range, children). -/
inductive DocumentSymbol where
  | mk (name : String) (detail : String) (kind : Nat)
       (range : Range) (selectionRange : Range)
       (children : List DocumentSymbol)

def DocumentSymbol.name : DocumentSymbol → String
  | .mk n _ _ _ _ _ => n

def DocumentSymbol.detail : DocumentSymbol → String
  | .mk _ d _ _ _ _ => d

def DocumentSymbol.kind : DocumentSymbol → Nat
  | .mk _ _ k _ _ _ => k

def DocumentSymbol.range : DocumentSymbol → Range
  | .mk _ _ _ r _ _ => r

def DocumentSymbol.selectionRange : DocumentSymbol → Range
  | .mk _ _ _ _ s _ => s

def DocumentSymbol.children : DocumentSymbol → List DocumentSymbol
  | .mk _ _ _ _ _ c => c

/-- The reverse mapping `vscode.SymbolKind[kind]` (enum value → name; an
out-of-range value yields the string `"undefined"` in JS). -/
def symbolKindName (kind : Nat) : String :=
  match kind with
  | 0 => "File"
  | 1 => "Module"
  | 2 => "Namespace"
  | 3 => "Package"
  | 4 => "Class"
  | 5 => "Method"
  | 6 => "Property"
  | 7 => "Field"
  | 8 => "Constructor"
  | 9 => "Enum"
  | 10 => "Interface"
  | 11 => "Function"
  | 12 => "Variable"
  | 13 => "Constant"
  | 14 => "String"
  | 15 => "Number"
  | 16 => "Boolean"
  | 17 => "Array"
  | 18 => "Object"
  | 19 => "Key"
  | 20 => "Null"
  | 21 => "EnumMember"
  | 22 => "Struct"
  | 23 => "Event"
  | 24 => "Operator"
  | 25 => "TypeParameter"
  | _ => "undefined"

/-- Modelled from the spec: a call-hierarchy counterpart (`call.from` /
`call.to`), carrying a name, a location (`uri.fsPath`) and a range; the
defining type `ActiveSymbolDetailedInfo` lives in
`src/services/contextService.ts`, which is not part of the provided
sources. Spec §6: "each edge carries a counterpart name/location and the
call-site range". -/
structure CallItem where
  name : String
  uriFsPath : Option String
  range : Option Range

/-- Modelled from the spec: an incoming call edge (caller plus call-site
ranges). -/
structure IncomingCall where
  fromItem : CallItem
  fromRanges : List Range

/-- Modelled from the spec: an outgoing call edge; the field `toItem`
embeds the source's `call.to`. -/
structure OutgoingCall where
  toItem : CallItem

/-- Modelled from the spec: the active symbol's detail record
(`ActiveSymbolDetailedInfo` of `src/services/contextService.ts`, not in
the provided sources). Spec §6: "Active-symbol detail: name, kind, full
range, owning file path, and optional incoming/outgoing call edges". -/
structure ActiveSymbolDetailedInfo where
  name : String
  kind : Option Nat
  fullRange : Option Range
  filePath : Option String
  incomingCalls : Option (List IncomingCall)
  outgoingCalls : Option (List OutgoingCall)

/-- Modelled from the spec: the external constant
`MAX_REFERENCED_TYPE_CONTENT_CHARS_CONSTANT` imported from
`src/services/contextService.ts` (not in the provided sources); spec §4.4
only says call-graph candidates are "budgeted to a fixed external
constant", so a representative positive value is used — every theorem
below is independent of it. -/
def MAX_REFERENCED_TYPE_CONTENT_CHARS_CONSTANT : Nat := 3000

/-! ### JavaScript string primitives -/

/-- JS whitespace for `trim` / `\s` (ASCII fragment). -/
def jsIsSpace (c : Char) : Bool := c.isWhitespace

/-- `String.prototype.trim`. -/
def jsTrim (s : String) : String :=
  String.mk (((s.data.dropWhile jsIsSpace).reverse.dropWhile jsIsSpace).reverse)

/-- `String.prototype.substring(a, b)`: clamps both indices into
`[0, length]` and swaps them when `a > b`. -/
def jsSubstring (s : String) (a b : Int) : String :=
  let n : Int := (s.length : Int)
  let a' := min (max a 0) n
  let b' := min (max b 0) n
  let lo := min a' b'
  let hi := max a' b'
  String.mk ((s.data.drop lo.toNat).take (hi - lo).toNat)

/-- `String.prototype.substring(a)` (to the end of the string). -/
def jsSubstringFrom (s : String) (a : Int) : String :=
  jsSubstring s a (s.length : Int)

/-- `String.prototype.indexOf(c, fromIndex)` for a single character. -/
def jsIndexOfChar (s : String) (c : Char) (pos : Int) : Int :=
  let start := (min (max pos 0) (s.length : Int)).toNat
  match (s.data.drop start).findIdx? (fun x => x == c) with
  | some k => ((start + k : Nat) : Int)
  | none => -1

/-- One step of `replace(/\s+/g, " ")`: collapse every maximal whitespace
run into a single space (the flag tracks whether the previous character
was inside a run). -/
def collapseWsAux : List Char → Bool → List Char
  | [], _ => []
  | c :: rest, prevWs =>
    if jsIsSpace c then
      if prevWs then collapseWsAux rest true
      else ' ' :: collapseWsAux rest true
    else c :: collapseWsAux rest false

/-- `String.prototype.replace(/\s+/g, " ")`. -/
def collapseWs (s : String) : String := String.mk (collapseWsAux s.data false)

/-- Accumulator for `split("\n")` (structural, so concrete instances
evaluate in the kernel). -/
def splitLinesAux : List Char → List Char → List String
  | [], cur => [String.mk cur.reverse]
  | c :: rest, cur =>
    if c = '\n' then String.mk cur.reverse :: splitLinesAux rest []
    else splitLinesAux rest (c :: cur)

/-- `content.split("\n")`. -/
def jsSplitLines (s : String) : List String := splitLinesAux s.data []

/-- `String.prototype.startsWith`. -/
def strStartsWith (s p : String) : Bool := p.data.isPrefixOf s.data

/-- `String.prototype.endsWith`. -/
def strEndsWith (s p : String) : Bool :=
  p.data.reverse.isPrefixOf s.data.reverse

/-- `path.replace(/\\/g, "/")`: the pattern is a single character, so the
replacement is a character map. -/
def replaceBackslashes (s : String) : String :=
  String.mk (s.data.map (fun c => if c = '\\' then '/' else c))

/-- `array.join(sep)`. -/
def joinSep (sep : String) : List String → String
  | [] => ""
  | [x] => x
  | x :: xs => x ++ sep ++ joinSep sep xs

/-- `lines[i]` with JS out-of-range access modelled as `""`. -/
def lineAt (lines : List String) (i : Int) : String :=
  if 0 ≤ i then lines.getD i.toNat "" else ""

/-! ### `codeAnalysisUtils.ts` -/

/-- `extractContentForRange` (codeAnalysisUtils.ts lines 282-309). -/
def extractContentForRange (fullContent : String) (range : Range) : String :=
  let lines := jsSplitLines fullContent
  let startLine := range.start.line
  let endLine := range.endPos.line
  if startLine < 0 ∨ endLine ≥ (lines.length : Int) ∨ startLine > endLine
  then ""
  else
    let s := startLine.toNat
    let e := endLine.toNat
    let contentLines := (List.range (e - s + 1)).map (fun k =>
      let i := s + k
      let line := lines.getD i ""
      if i = s ∧ i = e then
        jsSubstring line range.start.character range.endPos.character
      else if i = s then jsSubstringFrom line range.start.character
      else if i = e then jsSubstring line 0 range.endPos.character
      else line)
    joinSep "\n" contentLines

/-- The block symbol kinds of `getDeclarationRange`
(Class, Function, Method, Constructor, Module, Namespace, Enum). -/
def isBlockKind (kind : Nat) : Bool :=
  [4, 11, 5, 8, 1, 2, 9].contains kind

/-- The brace-search loop of `getDeclarationRange`: scan lines `i..e` for
the first `{` (from the symbol's start character on its first line). -/
def findBraceFuel (lines : List String) (startLine startChar : Int) :
    Nat → Int → Int → Option (Int × Int)
  | 0, _, _ => none
  | fuel + 1, i, e =>
    if i ≤ e then
      let line := lineAt lines i
      let searchStartChar := if i = startLine then startChar else 0
      let braceIndex := jsIndexOfChar line '\x7b' searchStartChar
      if braceIndex ≠ -1 then some (i, braceIndex)
      else findBraceFuel lines startLine startChar fuel (i + 1) e
    else none

/-- `getDeclarationRange` (codeAnalysisUtils.ts lines 316-366). -/
def getDeclarationRange (fullContent : String) (symbol : DocumentSymbol) :
    Range :=
  let lines := jsSplitLines fullContent
  let startLine := symbol.range.start.line
  let endLine := symbol.range.endPos.line
  let isBlock := isBlockKind symbol.kind
  let found :=
    if isBlock then
      findBraceFuel lines startLine symbol.range.start.character
        (endLine - startLine + 1).toNat startLine endLine
    else none
  match found with
  | some (i, braceIndex) => ⟨symbol.range.start, ⟨i, braceIndex⟩⟩
  | none =>
    if symbol.kind = 10 ∨ symbol.kind = 25 ∨ isBlock = true then
      symbol.selectionRange
    else symbol.range

/-- Step 1 of `getDocumentationRange`: skip blank lines upwards. -/
def skipBlanksUpFuel (lines : List String) : Nat → Int → Int
  | 0, i => i
  | fuel + 1, i =>
    if 0 ≤ i ∧ jsTrim (lineAt lines i) = "" then
      skipBlanksUpFuel lines fuel (i - 1)
    else i

/-- Step 2 of `getDocumentationRange`: scan backwards accumulating the
contiguous documentation block; returns the final `startDocLine`. -/
def docScanFuel (lines : List String) : Nat → Int → Int → Int
  | 0, _, startDocLine => startDocLine
  | fuel + 1, i, startDocLine =>
    if i < 0 then startDocLine
    else
      let trimmed := jsTrim (lineAt lines i)
      if trimmed = "" then
        if startDocLine ≠ -1 then docScanFuel lines fuel (i - 1) startDocLine
        else startDocLine
      else if strStartsWith trimmed "//" ∨ strStartsWith trimmed "/*" ∨
          strStartsWith trimmed "*" then
        if strStartsWith trimmed "//" ∧ 0 < i ∧
            (let prevTrimmed := jsTrim (lineAt lines (i - 1))
             prevTrimmed ≠ "" ∧ ¬strStartsWith prevTrimmed "//" ∧
               ¬strStartsWith prevTrimmed "/*" ∧
               ¬strStartsWith prevTrimmed "*")
        then i
        else if i = 0 then i
        else docScanFuel lines fuel (i - 1) i
      else i + 1

/-- Final cleanup of `getDocumentationRange`: advance past leading blank
lines inside the captured block. -/
def trimStartFuel (lines : List String) : Nat → Int → Int → Int
  | 0, finalStartLine, _ => finalStartLine
  | fuel + 1, finalStartLine, endDocLine =>
    if finalStartLine < endDocLine ∧
        jsTrim (lineAt lines finalStartLine) = "" then
      trimStartFuel lines fuel (finalStartLine + 1) endDocLine
    else finalStartLine

/-- `getDocumentationRange` (codeAnalysisUtils.ts lines 372-462). -/
def getDocumentationRange (fullContent : String)
    (symbol : DocumentSymbol) : Option Range :=
  let lines := jsSplitLines fullContent
  let startLine0 := symbol.range.start.line - 1
  let currentLine := skipBlanksUpFuel lines (startLine0 + 1).toNat startLine0
  if currentLine < 0 then none
  else
    let endDocLine := currentLine
    let startDocLine := docScanFuel lines (endDocLine + 1).toNat endDocLine (-1)
    if startDocLine = -1 ∨ startDocLine > endDocLine then none
    else
      let finalStartLine :=
        trimStartFuel lines (endDocLine - startDocLine + 1).toNat
          startDocLine endDocLine
      if finalStartLine > endDocLine then none
      else some ⟨⟨finalStartLine, 0⟩,
        ⟨endDocLine, ((lineAt lines endDocLine).length : Int)⟩⟩

/-- `formatSymbolStructure` (codeAnalysisUtils.ts lines 469-530). -/
def formatSymbolStructure (symbol : DocumentSymbol)
    (fullContent : String) : Option String :=
  if symbol.kind ≠ 10 ∧ symbol.kind ≠ 25 then none
  else
    let declarationRange := getDeclarationRange fullContent symbol
    let structure0 := jsTrim (extractContentForRange fullContent
      declarationRange)
    let structure1 :=
      if strEndsWith structure0 "\x7b" then
        jsTrim (jsSubstring structure0 0 ((structure0.length : Int) - 1))
      else structure0
    let formattedParts :=
      ["// " ++ symbolKindName symbol.kind ++ ": " ++ symbol.name,
       structure1]
    let formattedParts :=
      if 0 < symbol.children.length then
        let childrenList := symbol.children.filterMap (fun child =>
          if child.kind = 6 ∨ child.kind = 5 ∨ child.kind = 7 ∨
              child.kind = 23 then
            let childDeclarationRange := getDeclarationRange fullContent
              child
            let childContent := extractContentForRange fullContent
              childDeclarationRange
            let contentLine := collapseWs (jsTrim
              ((jsSplitLines childContent).headD ""))
            let detail :=
              if child.detail ≠ "" then " (" ++ child.detail ++ ")" else ""
            some ("  - " ++ contentLine ++ detail)
          else none)
        if childrenList ≠ [] then
          formattedParts ++ ["\x7b"] ++ childrenList ++ ["\x7d"]
        else formattedParts
      else formattedParts
    some (joinSep "\n" formattedParts)

/-! ### `intelligentlySummarizeFileContent` (semanticLinker.ts 413-857) -/

/-- One accepted, formatted block (`collectedParts` entries). -/
structure CollectedPart where
  content : String
  startLine : Int
deriving DecidableEq, Repr

/-- The mutable call-local state of `intelligentlySummarizeFileContent`:
`currentLength`, `collectedParts` and `includedRanges`. -/
structure SummState where
  currentLength : Nat
  collectedParts : List CollectedPart
  includedRanges : List Range
deriving DecidableEq, Repr

/-- `isSubstantiallyOverlapping` (semanticLinker.ts lines 430-452_: the
candidate is substantially overlapped when some already-included range
covers at least 70% of the **candidate's** line count.  The comparison
`intersectionLineCount >= candidateLineCount * 0.7` is carried out in ℚ
with the float literal `0.7` read as the exact rational 7/10, so the
right-hand side is the exact rational `(7 * candidateLineCount) / 10`. -/
def isSubstantiallyOverlapping (includedRanges : List Range)
    (candidateRange : Range) : Bool :=
  let candidateLineCount :=
    candidateRange.endPos.line - candidateRange.start.line + 1
  if candidateLineCount ≤ 0 then false
  else includedRanges.any (fun existingRange =>
    match rangeIntersection existingRange candidateRange with
    | some intersection =>
      if ¬(rangeIsEmpty intersection = true) then
        let intersectionLineCount :=
          intersection.endPos.line - intersection.start.line + 1
        decide (mkRat intersectionLineCount 1 ≥
          mkRat (7 * candidateLineCount) 10)
      else false
    | none => false)

/-- `addContentBlock` (semanticLinker.ts lines 464-529); returns whether
the block was added, together with the updated state. -/
def addContentBlock (maxAllowedLength : Nat) (st : SummState)
    (contentRaw : String) (sourceRange : Range) (markerType : String)
    (description : String) (desiredBlockLength : Option Nat) :
    Bool × SummState :=
  if st.currentLength ≥ maxAllowedLength then (false, st)
  else if isSubstantiallyOverlapping st.includedRanges sourceRange then
    (false, st)
  else
    let headerContent := if description ≠ "" then ": " ++ description else ""
    let headerPart := "// [" ++ markerType ++ headerContent ++ "]\n"
    let footerPart := "\n// [END_SECTION: " ++ markerType ++ "]"
    let contentToUse :=
      match desiredBlockLength with
      | some d =>
        if contentRaw.length > d then jsSubstring contentRaw 0 (d : Int)
        else contentRaw
      | none => contentRaw
    let combinedLength :=
      headerPart.length + contentToUse.length + footerPart.length
    let remainingSpace := maxAllowedLength - st.currentLength
    let combinedContent? : Option String :=
      if combinedLength > remainingSpace then
        let truncationMessage := "\n// ... (section truncated)"
        let availableContentLength : Int :=
          (remainingSpace : Int) - (headerPart.length : Int) -
            (footerPart.length : Int)
        if availableContentLength > 30 then
          some (jsSubstring contentToUse 0
              (availableContentLength - (truncationMessage.length : Int)) ++
            truncationMessage)
        else none
      else some contentToUse
    match combinedContent? with
    | none => (false, st)
    | some combinedContent =>
      let finalBlock := headerPart ++ combinedContent ++ footerPart
      if 0 < finalBlock.length then
        (true,
         { currentLength := st.currentLength + finalBlock.length,
           collectedParts := st.collectedParts ++
             [⟨finalBlock, sourceRange.start.line⟩],
           includedRanges := st.includedRanges ++ [sourceRange] })
      else (false, st)

/-- `ContentCandidate` (semanticLinker.ts lines 532-539); priorities are
the exact rationals behind the source's float literals. -/
structure ContentCandidate where
  priority : ℚ
  range : Range
  marker : String
  description : String
  contentOverride : Option String
  desiredBlockLength : Option Nat

/-- `MAJOR_SYMBOL_KINDS` (numeric `SymbolKind` values, source order). -/
def MAJOR_SYMBOL_KINDS : List Nat := [4, 11, 5, 10, 9, 2, 8, 1, 12, 13, 25, 6, 7]

/-- `EXPORTED_SYMBOL_KINDS` (numeric `SymbolKind` values, source order). -/
def EXPORTED_SYMBOL_KINDS : List Nat := [4, 11, 10, 9, 12, 13]

/-- Candidate 1 (semanticLinker.ts lines 556-568): the active symbol's
full definition, produced whenever `activeSymbolDetailedInfo?.fullRange`
is present. -/
def activeCandidates
    (activeSymbolDetailedInfo : Option ActiveSymbolDetailedInfo) :
    List ContentCandidate :=
  match activeSymbolDetailedInfo with
  | some info =>
    match info.fullRange with
    | some fullRange =>
      let kindName :=
        match info.kind with
        | some k => symbolKindName k
        | none => "Unknown"
      [{ priority := mkRat 5 1, range := fullRange, marker := "ACTIVE_SYMBOL",
         description := info.name ++ " (" ++ kindName ++ ")",
         contentOverride := none, desiredBlockLength := none }]
    | none => []
  | none => []

/-- A line counted into the preamble (comment-shaped or blank). -/
def isPreambleLine (line : String) : Bool :=
  let l := jsTrim line
  strStartsWith l "//" || strStartsWith l "/*" || strStartsWith l "*" ||
    strStartsWith l "#" || l == ""

/-- `preambleEndLine` (semanticLinker.ts lines 571-585): the last index of
the run of preamble lines among the first (at most 20) lines, or -1. -/
def computePreambleEndLine (fileLines : List String) : Int :=
  (((fileLines.take 20).takeWhile isPreambleLine).length : Int) - 1

/-- Candidate 2 (semanticLinker.ts lines 586-599); `Math.floor(max*0.15)`
is modelled as `max*15/100` (natural division). -/
def preambleCandidates (fileLines : List String) (maxAllowedLength : Nat) :
    List ContentCandidate :=
  let preambleEndLine := computePreambleEndLine fileLines
  if preambleEndLine ≥ 0 then
    [{ priority := mkRat 9 2,
       range := ⟨⟨0, 0⟩, ⟨preambleEndLine,
         (((fileLines.getD preambleEndLine.toNat "").length : Nat) : Int)⟩⟩,
       marker := "PREAMBLE", description := "High-level description",
       contentOverride := none,
       desiredBlockLength := some (maxAllowedLength * 15 / 100) }]
  else []

def importKeywords : List String :=
  ["import ", "require(", "from ", "using ", "package "]

/-- The scan for `importAndSetupEndLine` (semanticLinker.ts lines
602-620): the index of the last import-like line before the first
non-comment code line that follows some import. -/
def computeImportEndAux : List String → Int → Bool → Int → Int
  | [], _, _, acc => acc
  | line :: rest, i, foundFirstCodeOrImportLine, acc =>
    let t := jsTrim line
    let isImportLike := importKeywords.any (fun keyword => strStartsWith t keyword)
    let isCommentOrEmpty := t == "" || strStartsWith t "//" || strStartsWith t "/*"
    if isImportLike then computeImportEndAux rest (i + 1) true i
    else if ¬(isCommentOrEmpty = true) ∧ foundFirstCodeOrImportLine = true
    then acc
    else computeImportEndAux rest (i + 1) foundFirstCodeOrImportLine acc

def computeImportAndSetupEndLine (fileLines : List String) : Int :=
  computeImportEndAux fileLines 0 false (-1)

/-- Candidate 3 (semanticLinker.ts lines 622-638). -/
def importCandidates (fileLines : List String)
    (preambleEndLine importAndSetupEndLine : Int)
    (maxAllowedLength : Nat) : List ContentCandidate :=
  if importAndSetupEndLine ≥ 0 then
    let startLineForImports := max (preambleEndLine + 1) 0
    if importAndSetupEndLine ≥ startLineForImports then
      [{ priority := mkRat 4 1,
         range := ⟨⟨startLineForImports, 0⟩, ⟨importAndSetupEndLine,
           (((fileLines.getD importAndSetupEndLine.toNat "").length : Nat) :
             Int)⟩⟩,
         marker := "IMPORTS", description := "Module Setup",
         contentOverride := none,
         desiredBlockLength := some (maxAllowedLength * 20 / 100) }]
    else []
  else []

/-- Candidates 4 (semanticLinker.ts lines 641-695): documentation,
structure and declaration-signature candidates for exported symbols
located after the import block. -/
def exportedCandidates (fileContent : String)
    (documentSymbols : List DocumentSymbol)
    (importAndSetupEndLine : Int) (maxAllowedLength : Nat) :
    List ContentCandidate :=
  (documentSymbols.filter (fun symbol =>
      symbol.kind ∈ EXPORTED_SYMBOL_KINDS ∧
        symbol.range.start.line > importAndSetupEndLine)).flatMap
    (fun symbol =>
      let kindName := symbolKindName symbol.kind
      let docCands :=
        match getDocumentationRange fileContent symbol with
        | some docRange =>
          [{ priority := mkRat 39 10, range := docRange, marker := "DOC",
             description := "Exported " ++ kindName ++
               " Documentation: " ++ symbol.name,
             contentOverride := none, desiredBlockLength := some 512 }]
        | none => []
      let structCands :=
        if symbol.kind = 10 ∨ symbol.kind = 25 ∨ symbol.kind = 25 then
          match formatSymbolStructure symbol fileContent with
          | some structuredContent =>
            if structuredContent ≠ "" then
              [{ priority := mkRat 19 5, range := symbol.range, marker := "STRUCT",
                 description := "Exported " ++ kindName ++ " Structure: " ++
                   symbol.name,
                 contentOverride := some structuredContent,
                 desiredBlockLength := some (maxAllowedLength * 15 / 100) }]
            else []
          | none => []
        else []
      let declCands :=
        let declarationRange := getDeclarationRange fileContent symbol
        [{ priority := mkRat 37 10, range := declarationRange, marker := "SIGNATURE",
           description := "Exported " ++ kindName ++ " Signature: " ++
             symbol.name,
           contentOverride := none, desiredBlockLength := some 1024 }]
      docCands ++ structCands ++ declCands)

/-- `isLocationInCurrentFile` (semanticLinker.ts lines 544-554). -/
def isLocationInCurrentFile (location : Option CallItem)
    (currentFilePath : String) : Bool :=
  match location with
  | none => false
  | some loc =>
    match loc.uriFsPath with
    | none => false
    | some fsPath =>
      if currentFilePath == "" then false
      else (replaceBackslashes fsPath) == currentFilePath

/-- Candidates 5 (semanticLinker.ts lines 697-733): call-hierarchy
neighbors of the active symbol that lie in the same file. -/
def callCandidates
    (activeSymbolDetailedInfo : Option ActiveSymbolDetailedInfo) :
    List ContentCandidate :=
  match activeSymbolDetailedInfo with
  | none => []
  | some info =>
    match info.filePath with
    | none => []
    | some fp =>
      let currentFileNormalizedPath := replaceBackslashes fp
      let incoming := (info.incomingCalls.getD []).filterMap (fun call =>
        match call.fromRanges.head? with
        | some r =>
          if isLocationInCurrentFile (some call.fromItem)
              currentFileNormalizedPath then
            some { priority := mkRat 13 4, range := r, marker := "CONTEXT",
                   description := "Call to active symbol from: " ++
                     call.fromItem.name,
                   contentOverride := none,
                   desiredBlockLength :=
                     some MAX_REFERENCED_TYPE_CONTENT_CHARS_CONSTANT }
          else none
        | none => none)
      let outgoing := (info.outgoingCalls.getD []).filterMap (fun call =>
        match call.toItem.range with
        | some r =>
          if isLocationInCurrentFile (some call.toItem)
              currentFileNormalizedPath then
            some { priority := mkRat 13 4, range := r, marker := "CONTEXT",
                   description := "Active symbol calls: " ++
                     call.toItem.name,
                   contentOverride := none,
                   desiredBlockLength :=
                     some MAX_REFERENCED_TYPE_CONTENT_CHARS_CONSTANT }
          else none
        | none => none)
      incoming ++ outgoing

/-- Candidates 6 (semanticLinker.ts lines 736-758): major-but-not-exported
symbols. `declarationRange || symbol.range` always takes the declaration
range, because `getDeclarationRange` returns an (always truthy) object. -/
def internalCandidates (fileContent : String)
    (documentSymbols : List DocumentSymbol) : List ContentCandidate :=
  (documentSymbols.filter (fun symbol =>
      symbol.kind ∈ MAJOR_SYMBOL_KINDS ∧
        symbol.kind ∉ EXPORTED_SYMBOL_KINDS)).map
    (fun symbol =>
      let kindName := symbolKindName symbol.kind
      let declarationRange := getDeclarationRange fileContent symbol
      let rangeToUse := declarationRange
      { priority := mkRat 3 1, range := rangeToUse, marker := "SIGNATURE",
        description := "Internal " ++ kindName ++ " Signature: " ++
          symbol.name,
        contentOverride := none, desiredBlockLength := some 2048 })

/-- All candidates, in the order the source pushes them. -/
def buildCandidates (fileContent : String)
    (documentSymbols : Option (List DocumentSymbol))
    (activeSymbolDetailedInfo : Option ActiveSymbolDetailedInfo)
    (maxAllowedLength : Nat) : List ContentCandidate :=
  let fileLines := jsSplitLines fileContent
  let preambleEndLine := computePreambleEndLine fileLines
  let importAndSetupEndLine := computeImportAndSetupEndLine fileLines
  activeCandidates activeSymbolDetailedInfo ++
    preambleCandidates fileLines maxAllowedLength ++
    importCandidates fileLines preambleEndLine importAndSetupEndLine
      maxAllowedLength ++
    (match documentSymbols with
     | some syms =>
       exportedCandidates fileContent syms importAndSetupEndLine
         maxAllowedLength
     | none => []) ++
    callCandidates activeSymbolDetailedInfo ++
    (match documentSymbols with
     | some syms => internalCandidates fileContent syms
     | none => [])

/-- `y` strictly precedes `x` under the comparator
`(a, b) => b.priority - a.priority || a.range.start.line - b.range.start.line`. -/
def candBefore (y x : ContentCandidate) : Prop :=
  x.priority < y.priority ∨
    (y.priority = x.priority ∧ y.range.start.line < x.range.start.line)

instance (y x : ContentCandidate) : Decidable (candBefore y x) := by
  unfold candBefore
  infer_instance

/-- Stable insertion for the candidate sort. -/
def insertCand (x : ContentCandidate) :
    List ContentCandidate → List ContentCandidate
  | [] => [x]
  | y :: l => if candBefore y x then y :: insertCand x l else x :: y :: l

/-- `candidates.sort(...)` (semanticLinker.ts lines 761-763) — JS `sort`
is stable. -/
def sortCandidates (cands : List ContentCandidate) : List ContentCandidate :=
  cands.foldr insertCand []

/-- The candidate-processing loop (semanticLinker.ts lines 766-784).  The
`break` on a filled budget is modelled by skipping the remaining
candidates: `currentLength` never decreases, so the guard stays false. -/
def processCandidates (fileContent : String) (maxAllowedLength : Nat)
    (cands : List ContentCandidate) (st : SummState) : SummState :=
  cands.foldl (fun st candidate =>
    if st.currentLength ≥ maxAllowedLength then st
    else
      let contentRaw :=
        match candidate.contentOverride with
        | some o => o
        | none => extractContentForRange fileContent candidate.range
      if jsTrim contentRaw ≠ "" then
        (addContentBlock maxAllowedLength st contentRaw candidate.range
          candidate.marker candidate.description
          candidate.desiredBlockLength).2
      else st) st

/-- The inner loop of the fallback pass (semanticLinker.ts lines 801-808):
extend the block while the next line exists and is not covered. -/
def findBlockEndFuel (fileLines : List String)
    (includedRanges : List Range) : Nat → Nat → Nat
  | 0, blockEndLine => blockEndLine
  | fuel + 1, blockEndLine =>
    if blockEndLine + 1 < fileLines.length then
      if includedRanges.any (fun r =>
          decide (rangeContains r ⟨((blockEndLine + 1 : Nat) : Int), 0⟩))
      then blockEndLine
      else findBlockEndFuel fileLines includedRanges fuel (blockEndLine + 1)
    else blockEndLine

/-- The fallback pass (semanticLinker.ts lines 787-835), fuelled by the
line count: each iteration advances `currentLine` by at least one, so
`fileLines.length` iterations always suffice. -/
def fallbackLoopFuel (fileContent : String) (maxAllowedLength : Nat)
    (fileLines : List String) : Nat → Nat → SummState → SummState
  | 0, _, st => st
  | fuel + 1, currentLine, st =>
    if currentLine < fileLines.length ∧
        st.currentLength < maxAllowedLength then
      let lineStart : Pos := ⟨(currentLine : Int), 0⟩
      let isLineCovered := st.includedRanges.any (fun r =>
        decide (rangeContains r lineStart))
      if isLineCovered then
        fallbackLoopFuel fileContent maxAllowedLength fileLines fuel
          (currentLine + 1) st
      else
        let blockEndLine := findBlockEndFuel fileLines st.includedRanges
          fileLines.length currentLine
        let snippetRange : Range := ⟨⟨(currentLine : Int), 0⟩,
          ⟨(blockEndLine : Int),
           (((fileLines.getD blockEndLine "").length : Nat) : Int)⟩⟩
        let snippetContent := extractContentForRange fileContent snippetRange
        let st' :=
          if jsTrim snippetContent ≠ "" then
            (addContentBlock maxAllowedLength st snippetContent snippetRange
              "CONTEXT"
              ("Lines " ++ toString (currentLine + 1) ++ "-" ++
                toString (blockEndLine + 1))
              (some (maxAllowedLength - st.currentLength))).2
          else st
        fallbackLoopFuel fileContent maxAllowedLength fileLines fuel
          (blockEndLine + 1) st'
    else st

/-- Stable insertion for the final part sort. -/
def insertPart (x : CollectedPart) :
    List CollectedPart → List CollectedPart
  | [] => [x]
  | y :: l => if y.startLine < x.startLine then y :: insertPart x l
              else x :: y :: l

/-- `collectedParts.sort((a, b) => a.startLine - b.startLine)`
(semanticLinker.ts line 838) — stable ascending. -/
def sortParts (ps : List CollectedPart) : List CollectedPart :=
  ps.foldr insertPart []

/-- The final assembly (semanticLinker.ts lines 838-856): join by the
non-contiguous separator, hard-truncate past the budget, and fall back to
a literal snippet when nothing was collected for a non-empty file. -/
def assembleFinal (fileContent : String) (maxAllowedLength : Nat)
    (st : SummState) : String :=
  let sorted := sortParts st.collectedParts
  let finalContent := joinSep
    "\n\n// ... (non-contiguous section) ...\n\n"
    (sorted.map (fun p => p.content))
  let finalContent :=
    if finalContent.length > maxAllowedLength then
      jsSubstring finalContent 0 (maxAllowedLength : Int) ++
        "\n// ... (truncated)"
    else finalContent
  if jsTrim finalContent = "" ∧ 0 < fileContent.length then
    "// File content could not be summarized. Snippet: " ++
      jsSubstring fileContent 0 ((min fileContent.length 100 : Nat) : Int) ++
      "..."
  else jsTrim finalContent

/-- The state after candidate processing and the fallback pass. -/
def summarizeState (fileContent : String)
    (documentSymbols : Option (List DocumentSymbol))
    (activeSymbolDetailedInfo : Option ActiveSymbolDetailedInfo)
    (maxAllowedLength : Nat) : SummState :=
  let fileLines := jsSplitLines fileContent
  let candidates := sortCandidates (buildCandidates fileContent
    documentSymbols activeSymbolDetailedInfo maxAllowedLength)
  let st := processCandidates fileContent maxAllowedLength candidates
    ⟨0, [], []⟩
  if st.currentLength < maxAllowedLength then
    fallbackLoopFuel fileContent maxAllowedLength fileLines
      fileLines.length 0 st
  else st

/-- `intelligentlySummarizeFileContent` (semanticLinker.ts lines
413-857). -/
def intelligentlySummarizeFileContent (fileContent : String)
    (documentSymbols : Option (List DocumentSymbol))
    (activeSymbolDetailedInfo : Option ActiveSymbolDetailedInfo)
    (maxAllowedLength : Nat) : String :=
  assembleFinal fileContent maxAllowedLength
    (summarizeState fileContent documentSymbols activeSymbolDetailedInfo
      maxAllowedLength)

/-- C8: `extractContentForRange` returns the empty string for every range
with a negative start line, an end line at or beyond the number of lines,
or a start line after the end line. -/
theorem extractContentForRange_invalid_range (fullContent : String)
    (range : Range)
    (h : range.start.line < 0 ∨
      range.endPos.line ≥ (((jsSplitLines fullContent).length : Nat) : Int) ∨
      range.start.line > range.endPos.line) :
    extractContentForRange fullContent range = "" := by
  unfold extractContentForRange
  rw [if_pos h]

/-- C8 witness: a range with a negative start line on a two-line file. -/
theorem extractContentForRange_invalid_range_witness :
    ((⟨⟨-1, 0⟩, ⟨0, 5⟩⟩ : Range).start.line < 0 ∨
      (⟨⟨-1, 0⟩, ⟨0, 5⟩⟩ : Range).endPos.line ≥
        ((((jsSplitLines "a\nb")).length : Nat) : Int) ∨
      (⟨⟨-1, 0⟩, ⟨0, 5⟩⟩ : Range).start.line >
        (⟨⟨-1, 0⟩, ⟨0, 5⟩⟩ : Range).endPos.line) ∧
    extractContentForRange "a\nb" ⟨⟨-1, 0⟩, ⟨0, 5⟩⟩ = "" :=
  ⟨by decide, extractContentForRange_invalid_range _ _ (by decide)⟩

/-! ### String length facts for the budget bound -/

theorem length_jsTrim_le (s : String) : (jsTrim s).length ≤ s.length := by
  unfold jsTrim
  show (((s.data.dropWhile jsIsSpace).reverse.dropWhile
    jsIsSpace).reverse).length ≤ s.data.length
  rw [List.length_reverse]
  calc ((s.data.dropWhile jsIsSpace).reverse.dropWhile jsIsSpace).length
      ≤ (s.data.dropWhile jsIsSpace).reverse.length :=
        (List.dropWhile_sublist _).length_le
    _ = (s.data.dropWhile jsIsSpace).length := List.length_reverse _
    _ ≤ s.data.length := (List.dropWhile_sublist _).length_le

theorem length_jsSubstring_zero_le (s : String) (k : Nat) :
    (jsSubstring s 0 ((k : Nat) : Int)).length ≤ k := by
  unfold jsSubstring
  show (((s.data.drop _).take _).length) ≤ k
  refine le_trans (List.length_take_le _ _) ?_
  have hn : (0 : Int) ≤ ((s.length : Nat) : Int) := Int.natCast_nonneg _
  have hk : (0 : Int) ≤ ((k : Nat) : Int) := Int.natCast_nonneg _
  refine Int.toNat_le.mpr ?_
  have ha : min (max (0 : Int) 0) ((s.length : Nat) : Int) = 0 := by
    simp [hn]
  rw [ha]
  have hb0 : (0 : Int) ≤ min (max ((k : Nat) : Int) 0)
      ((s.length : Nat) : Int) := le_min (le_max_right _ _) hn
  have hb1 : min (max ((k : Nat) : Int) 0) ((s.length : Nat) : Int) ≤
      ((k : Nat) : Int) := by
    refine le_trans (min_le_left _ _) ?_
    simp [hk]
  rw [min_eq_left hb0, max_eq_right hb0, sub_zero]
  exact hb1

theorem string_ne_empty_iff_length_pos (s : String) :
    s ≠ "" ↔ 0 < s.length := by
  cases s with
  | mk data =>
    show ¬(String.mk data = String.mk []) ↔ 0 < data.length
    rw [String.ext_iff]
    show ¬(data = []) ↔ 0 < data.length
    exact ⟨fun h => List.length_pos.mpr h, fun h h' => by simp [h'] at h⟩

/-- The final assembly never exceeds `maxAllowedLength + 19` characters
(the hard truncation appends the 19-character marker
`"\n// ... (truncated)"`), except for the literal-snippet fallback, which
is at most 153 characters (50-character prefix, at most 100 snippet
characters, 3-character ellipsis). -/
theorem assembleFinal_length_le (fileContent : String)
    (maxAllowedLength : Nat) (st : SummState) :
    (assembleFinal fileContent maxAllowedLength st).length ≤
      max (maxAllowedLength + 19) 153 := by
  simp only [assembleFinal]
  set joined := joinSep
    "\n\n// ... (non-contiguous section) ...\n\n"
    ((sortParts st.collectedParts).map (fun p => p.content)) with hjoined
  set finalContent :=
    if joined.length > maxAllowedLength then
      jsSubstring joined 0 ((maxAllowedLength : Nat) : Int) ++
        "\n// ... (truncated)"
    else joined with hfinal
  have hfc : finalContent.length ≤ maxAllowedLength + 19 := by
    rw [hfinal]
    split
    · rw [String.length_append]
      have h1 := length_jsSubstring_zero_le joined maxAllowedLength
      have h2 : ("\n// ... (truncated)" : String).length = 19 := by decide
      omega
    · rename_i h
      omega
  split
  · -- fallback literal snippet
    rw [String.length_append, String.length_append]
    have h1 : ("// File content could not be summarized. Snippet: " :
        String).length = 50 := by decide
    have h2 := length_jsSubstring_zero_le fileContent
      (min fileContent.length 100)
    have h3 : ("..." : String).length = 3 := by decide
    have h4 : min fileContent.length 100 ≤ 100 := min_le_right _ _
    have h5 : 153 ≤ max (maxAllowedLength + 19) 153 := le_max_right _ _
    omega
  · have := length_jsTrim_le finalContent
    have h5 : maxAllowedLength + 19 ≤ max (maxAllowedLength + 19) 153 :=
      le_max_left _ _
    omega

/-- C1 (amended): for every positive budget the summarizer's output has
length at most `max (maxAllowedLength + 19) 153`: the final hard
truncation appends a 19-character `"\n// ... (truncated)"` marker past the
budget, and the non-summarizable-content fallback returns a literal
snippet of up to 153 characters regardless of the budget. -/
theorem intelligentlySummarizeFileContent_length_bound
    (fileContent : String) (documentSymbols : Option (List DocumentSymbol))
    (activeSymbolDetailedInfo : Option ActiveSymbolDetailedInfo)
    (maxAllowedLength : Nat) (h : 0 < maxAllowedLength) :
    (intelligentlySummarizeFileContent fileContent documentSymbols
        activeSymbolDetailedInfo maxAllowedLength).length ≤
      max (maxAllowedLength + 19) 153 := by
  unfold intelligentlySummarizeFileContent
  exact assembleFinal_length_le _ _ _

/-- C1 witness: the bound instantiated at the file `"x"` and budget 1. -/
theorem intelligentlySummarizeFileContent_length_bound_witness :
    0 < 1 ∧
      (intelligentlySummarizeFileContent "x" none none 1).length ≤
        max (1 + 19) 153 :=
  ⟨Nat.one_pos,
   intelligentlySummarizeFileContent_length_bound "x" none none 1
     Nat.one_pos⟩

/-- C1 counterexample: with the non-empty file `"x"` and the positive
budget 1, the summarizer returns the 54-character literal fallback
snippet, which exceeds the budget — the output length is **not** bounded
by `maxAllowedLength`. -/
theorem intelligentlySummarizeFileContent_exceeds_budget :
    0 < 1 ∧
      ¬((intelligentlySummarizeFileContent "x" none none 1).length ≤ 1) := by
  constructor
  · exact Nat.one_pos
  · decide

/-- C6: for every non-empty file content the summarizer's output is
non-empty (the literal-snippet fallback guarantees it when nothing was
collected). -/
theorem intelligentlySummarizeFileContent_nonempty (fileContent : String)
    (documentSymbols : Option (List DocumentSymbol))
    (activeSymbolDetailedInfo : Option ActiveSymbolDetailedInfo)
    (maxAllowedLength : Nat) (h : fileContent ≠ "") :
    intelligentlySummarizeFileContent fileContent documentSymbols
      activeSymbolDetailedInfo maxAllowedLength ≠ "" := by
  unfold intelligentlySummarizeFileContent
  simp only [assembleFinal]
  set st := summarizeState fileContent documentSymbols
    activeSymbolDetailedInfo maxAllowedLength with hst
  set joined := joinSep
    "\n\n// ... (non-contiguous section) ...\n\n"
    ((sortParts st.collectedParts).map (fun p => p.content)) with hjoined
  set finalContent :=
    if joined.length > maxAllowedLength then
      jsSubstring joined 0 ((maxAllowedLength : Nat) : Int) ++
        "\n// ... (truncated)"
    else joined with hfinal
  split
  · -- fallback: the prefix makes the snippet non-empty
    intro hcontra
    have := congrArg String.length hcontra
    rw [String.length_append, String.length_append] at this
    have h1 : ("// File content could not be summarized. Snippet: " :
        String).length = 50 := by decide
    simp [h1] at this
  · rename_i hcond
    push_neg at hcond
    intro hcontra
    have h1 := (string_ne_empty_iff_length_pos fileContent).mp h
    have h2 := hcond hcontra
    omega

/-- C6 witness: the non-empty file `"x"` yields a non-empty result. -/
theorem intelligentlySummarizeFileContent_nonempty_witness :
    ("x" : String) ≠ "" ∧
      intelligentlySummarizeFileContent "x" none none 1 ≠ "" :=
  ⟨by decide,
   intelligentlySummarizeFileContent_nonempty "x" none none 1 (by decide)⟩

/-- If a candidate range survives the overlap test against a whole list of
included ranges, it survives it against each single one. -/
theorem isSubstantiallyOverlapping_false_of_mem {rs : List Range}
    {c : Range} {a : Range}
    (h : isSubstantiallyOverlapping rs c = false) (ha : a ∈ rs) :
    isSubstantiallyOverlapping [a] c = false := by
  simp only [isSubstantiallyOverlapping] at h ⊢
  by_cases hcnt : c.endPos.line - c.start.line + 1 ≤ 0
  · rw [if_pos hcnt]
  · rw [if_neg hcnt] at h ⊢
    rw [List.any_eq_false] at h ⊢
    intro x hx
    rw [List.mem_singleton] at hx
    subst hx
    exact h _ ha

/-- `addContentBlock` either leaves the accepted ranges unchanged or
appends the source range after it passed the overlap test. -/
theorem addContentBlock_includedRanges (maxAllowedLength : Nat)
    (st : SummState) (contentRaw : String) (sourceRange : Range)
    (markerType : String) (description : String)
    (desiredBlockLength : Option Nat) :
    (addContentBlock maxAllowedLength st contentRaw sourceRange markerType
        description desiredBlockLength).2.includedRanges =
      st.includedRanges ∨
    ((addContentBlock maxAllowedLength st contentRaw sourceRange markerType
        description desiredBlockLength).2.includedRanges =
      st.includedRanges ++ [sourceRange] ∧
     isSubstantiallyOverlapping st.includedRanges sourceRange = false) := by
  simp only [addContentBlock]
  repeat' split
  all_goals simp_all

/-- The pairwise one-sided-overlap invariant on the accepted ranges is
preserved by `addContentBlock`: a range is only appended after passing
`isSubstantiallyOverlapping` against all earlier accepted ranges. -/
theorem addContentBlock_pairwise (maxAllowedLength : Nat) (st : SummState)
    (contentRaw : String) (sourceRange : Range) (markerType : String)
    (description : String) (desiredBlockLength : Option Nat)
    (h : List.Pairwise (fun a b => isSubstantiallyOverlapping [a] b = false)
      st.includedRanges) :
    List.Pairwise (fun a b => isSubstantiallyOverlapping [a] b = false)
      (addContentBlock maxAllowedLength st contentRaw sourceRange markerType
        description desiredBlockLength).2.includedRanges := by
  rcases addContentBlock_includedRanges maxAllowedLength st contentRaw
      sourceRange markerType description desiredBlockLength with
    heq | ⟨heq, hover⟩
  · rw [heq]
    exact h
  · rw [heq]
    refine List.pairwise_append.mpr ⟨h, by simp, ?_⟩
    intro a ha b hb
    rw [List.mem_singleton] at hb
    subst hb
    exact isSubstantiallyOverlapping_false_of_mem hover ha

theorem processCandidates_pairwise (fileContent : String)
    (maxAllowedLength : Nat) (cands : List ContentCandidate)
    (st : SummState)
    (h : List.Pairwise (fun a b => isSubstantiallyOverlapping [a] b = false)
      st.includedRanges) :
    List.Pairwise (fun a b => isSubstantiallyOverlapping [a] b = false)
      (processCandidates fileContent maxAllowedLength cands
        st).includedRanges := by
  unfold processCandidates
  induction cands generalizing st with
  | nil => simpa using h
  | cons c rest ih =>
    rw [List.foldl_cons]
    apply ih
    split
    · exact h
    · dsimp only
      split
      · exact addContentBlock_pairwise _ _ _ _ _ _ _ h
      · exact h

theorem fallbackLoopFuel_pairwise (fileContent : String)
    (maxAllowedLength : Nat) (fileLines : List String) (fuel : Nat)
    (currentLine : Nat) (st : SummState)
    (h : List.Pairwise (fun a b => isSubstantiallyOverlapping [a] b = false)
      st.includedRanges) :
    List.Pairwise (fun a b => isSubstantiallyOverlapping [a] b = false)
      (fallbackLoopFuel fileContent maxAllowedLength fileLines fuel
        currentLine st).includedRanges := by
  induction fuel generalizing currentLine st with
  | zero => exact h
  | succ fuel ih =>
    rw [fallbackLoopFuel]
    split
    · dsimp only
      split
      · exact ih _ _ h
      · apply ih
        dsimp only
        split
        · exact addContentBlock_pairwise _ _ _ _ _ _ _ h
        · exact h
    · exact h

/-- C7 (amended): the overlap filter is one-sided.  Among the accepted
ranges, in acceptance order, every later-accepted range overlaps each
earlier-accepted range by strictly less than 70% of the **later** range's
line count (`isSubstantiallyOverlapping [earlier] later` is false); the
symmetric bound on the earlier range's line count does not hold in
general. -/
theorem summarizeState_overlap_one_sided (fileContent : String)
    (documentSymbols : Option (List DocumentSymbol))
    (activeSymbolDetailedInfo : Option ActiveSymbolDetailedInfo)
    (maxAllowedLength : Nat) :
    List.Pairwise (fun a b => isSubstantiallyOverlapping [a] b = false)
      (summarizeState fileContent documentSymbols activeSymbolDetailedInfo
        maxAllowedLength).includedRanges := by
  unfold summarizeState
  dsimp only
  split
  · exact fallbackLoopFuel_pairwise _ _ _ _ _ _
      (processCandidates_pairwise _ _ _ _ (by simp))
  · exact processCandidates_pairwise _ _ _ _ (by simp)

/-- C7 counterexample input: ten 4-character lines with no braces. -/
def cx7_content : String :=
  "aaaa\nbbbb\ncccc\ndddd\neeee\nffff\ngggg\nhhhh\niiii\njjjj"

/-- C7 counterexample input: a `Method` (major, non-exported) symbol
spanning all ten lines, with no `{` so its declaration range falls back to
the selection range. -/
def cx7_sym : DocumentSymbol :=
  .mk "helper" "" 5 ⟨⟨0, 0⟩, ⟨9, 4⟩⟩ ⟨⟨0, 0⟩, ⟨9, 4⟩⟩ []

/-- C7 counterexample input: an active symbol whose full range is the
single line 4. -/
def cx7_active : ActiveSymbolDetailedInfo :=
  { name := "foo", kind := some 11, fullRange := some ⟨⟨4, 0⟩, ⟨4, 4⟩⟩,
    filePath := some "f.ts", incomingCalls := none, outgoingCalls := none }

/-- C7 counterexample: on this input the summarizer accepts the one-line
active-symbol range first and the ten-line signature range second; the
two accepted ranges overlap on one full line, which is 100% ≥ 70% of the
**first** block's line count — so two accepted blocks can overlap by 70%
or more of one of the two blocks' line counts. -/
theorem accepted_blocks_can_overlap_earlier :
    (summarizeState cx7_content (some [cx7_sym]) (some cx7_active)
        10000).includedRanges =
      [⟨⟨4, 0⟩, ⟨4, 4⟩⟩, ⟨⟨0, 0⟩, ⟨9, 4⟩⟩] ∧
    isSubstantiallyOverlapping [⟨⟨0, 0⟩, ⟨9, 4⟩⟩] ⟨⟨4, 0⟩, ⟨4, 4⟩⟩ = true :=
  ⟨by decide, by decide⟩

theorem activeCandidates_sound {ai : Option ActiveSymbolDetailedInfo}
    {c : ContentCandidate} (hc : c ∈ activeCandidates ai) :
    ∃ info r, ai = some info ∧ info.fullRange = some r := by
  match ai with
  | none => simp [activeCandidates] at hc
  | some info =>
    match hfr : info.fullRange with
    | none => simp [activeCandidates, hfr] at hc
    | some r => exact ⟨info, r, rfl, hfr⟩

theorem preambleCandidates_marker {fileLines : List String}
    {maxAllowedLength : Nat} {c : ContentCandidate}
    (hc : c ∈ preambleCandidates fileLines maxAllowedLength) :
    c.marker = "PREAMBLE" := by
  unfold preambleCandidates at hc
  dsimp only at hc
  split at hc
  · rw [List.mem_singleton] at hc
    subst hc
    rfl
  · simp at hc

theorem importCandidates_marker {fileLines : List String}
    {preambleEndLine importAndSetupEndLine : Int} {maxAllowedLength : Nat}
    {c : ContentCandidate}
    (hc : c ∈ importCandidates fileLines preambleEndLine
      importAndSetupEndLine maxAllowedLength) :
    c.marker = "IMPORTS" := by
  unfold importCandidates at hc
  dsimp only at hc
  split at hc
  · split at hc
    · rw [List.mem_singleton] at hc
      subst hc
      rfl
    · simp at hc
  · simp at hc

theorem exportedCandidates_marker {fileContent : String}
    {documentSymbols : List DocumentSymbol} {importAndSetupEndLine : Int}
    {maxAllowedLength : Nat} {c : ContentCandidate}
    (hc : c ∈ exportedCandidates fileContent documentSymbols
      importAndSetupEndLine maxAllowedLength) :
    c.marker = "DOC" ∨ c.marker = "STRUCT" ∨ c.marker = "SIGNATURE" := by
  unfold exportedCandidates at hc
  rw [List.mem_flatMap] at hc
  obtain ⟨symbol, _, hc⟩ := hc
  dsimp only at hc
  rcases List.mem_append.mp hc with h | h
  · rcases List.mem_append.mp h with h | h
    · left
      split at h
      · rw [List.mem_singleton] at h
        subst h
        rfl
      · simp at h
    · right; left
      split at h
      · split at h
        · split at h
          · rw [List.mem_singleton] at h
            subst h
            rfl
          · simp at h
        · simp at h
      · simp at h
  · right; right
    rw [List.mem_singleton] at h
    subst h
    rfl

theorem callCandidates_marker {ai : Option ActiveSymbolDetailedInfo}
    {c : ContentCandidate} (hc : c ∈ callCandidates ai) :
    c.marker = "CONTEXT" := by
  unfold callCandidates at hc
  match ai with
  | none => simp at hc
  | some info =>
    dsimp only at hc
    match hfp : info.filePath with
    | none =>
      rw [hfp] at hc
      simp at hc
    | some fp =>
      rw [hfp] at hc
      dsimp only at hc
      rcases List.mem_append.mp hc with h | h <;>
      · rw [List.mem_filterMap] at h
        obtain ⟨call, _, h⟩ := h
        split at h
        · split at h
          · injection h with h'
            subst h'
            rfl
          · exact absurd h (by simp)
        · exact absurd h (by simp)

theorem internalCandidates_marker {fileContent : String}
    {documentSymbols : List DocumentSymbol} {c : ContentCandidate}
    (hc : c ∈ internalCandidates fileContent documentSymbols) :
    c.marker = "SIGNATURE" := by
  unfold internalCandidates at hc
  rw [List.mem_map] at hc
  obtain ⟨symbol, _, heq⟩ := hc
  subst heq
  rfl

/-- C9 (amended): the priority-5 `ACTIVE_SYMBOL` candidate is produced
exactly when active-symbol info with a defined full range is supplied.
`intelligentlySummarizeFileContent` performs no check that the active
symbol belongs to the summarized file — that containment is only a
documented precondition on the caller — so info referring to a different
file still produces the candidate. -/
theorem activeSymbol_candidate_iff (fileContent : String)
    (documentSymbols : Option (List DocumentSymbol))
    (activeSymbolDetailedInfo : Option ActiveSymbolDetailedInfo)
    (maxAllowedLength : Nat) :
    (∃ c ∈ buildCandidates fileContent documentSymbols
        activeSymbolDetailedInfo maxAllowedLength,
      c.marker = "ACTIVE_SYMBOL" ∧ c.priority = mkRat 5 1) ↔
    (∃ info r, activeSymbolDetailedInfo = some info ∧
      info.fullRange = some r) := by
  constructor
  · rintro ⟨c, hc, hmark, hprio⟩
    unfold buildCandidates at hc
    dsimp only at hc
    rcases List.mem_append.mp hc with h5 | h6
    · rcases List.mem_append.mp h5 with h4 | hCall
      · rcases List.mem_append.mp h4 with h3 | hExp
        · rcases List.mem_append.mp h3 with h2 | hImp
          · rcases List.mem_append.mp h2 with hAct | hPre
            · exact activeCandidates_sound hAct
            · exfalso
              rw [preambleCandidates_marker hPre] at hmark
              exact absurd hmark (by decide)
          · exfalso
            rw [importCandidates_marker hImp] at hmark
            exact absurd hmark (by decide)
        · exfalso
          match documentSymbols with
          | none => simp at hExp
          | some syms =>
            rcases exportedCandidates_marker hExp with h' | h' | h' <;>
              (rw [h'] at hmark; exact absurd hmark (by decide))
      · exfalso
        rw [callCandidates_marker hCall] at hmark
        exact absurd hmark (by decide)
    · exfalso
      match documentSymbols with
      | none => simp at h6
      | some syms =>
        rw [internalCandidates_marker h6] at hmark
        exact absurd hmark (by decide)
  · rintro ⟨info, r, rfl, hfr⟩
    have hA : ∃ c, c ∈ activeCandidates (some info) ∧
        c.marker = "ACTIVE_SYMBOL" ∧ c.priority = mkRat 5 1 := by
      unfold activeCandidates
      dsimp only
      rw [hfr]
      exact ⟨_, List.mem_singleton.mpr rfl, rfl, rfl⟩
    obtain ⟨c, hmem, hmark, hprio⟩ := hA
    refine ⟨c, ?_, hmark, hprio⟩
    unfold buildCandidates
    dsimp only
    exact List.mem_append_left _ (List.mem_append_left _
      (List.mem_append_left _ (List.mem_append_left _
        (List.mem_append_left _ hmem))))

/-- C9 counterexample input: active-symbol info whose owning file path is
`other.ts`, different from whatever file is being summarized. -/
def cx9_active : ActiveSymbolDetailedInfo :=
  { name := "sym", kind := some 11, fullRange := some ⟨⟨0, 0⟩, ⟨0, 8⟩⟩,
    filePath := some "other.ts", incomingCalls := none,
    outgoingCalls := none }

/-- C9 counterexample: summarizing the content `"codeline"` (not the file
`other.ts` the active symbol belongs to) still produces an
`ACTIVE_SYMBOL` candidate, because the function never compares the
supplied `filePath` with the file being summarized. -/
theorem activeSymbol_foreign_file_counterexample :
    cx9_active.filePath = some "other.ts" ∧
    (buildCandidates "codeline" none (some cx9_active) 100).any
      (fun c => c.marker == "ACTIVE_SYMBOL") = true :=
  ⟨rfl, by decide⟩
